import Mathlib

/-!
Verification of the bencode codec and the peer-wire framing of a BitTorrent
client, shallowly embedded from the Rust sources.

Bytes are modelled as `Nat` (values 0–255), byte buffers as `List Nat`, and
`usize` arithmetic as `Nat` with explicit `% 2^64` / bound checks at the one
place where overflow matters.  Fallible operations return `PResult`, whose
`panicked` constructor records that the Rust code aborts (index/slice panic,
arithmetic overflow in a debug build, or `unimplemented!`), and whose `ok`/`err`
constructors carry the deserializer's cursor position after the call, since the
Rust `BencodeDeserializer` keeps its `pos` field across failures.

Recursive container parsing (`get_any`/`skip_value`/the serde-driven decoder)
is defined structurally on an explicit recursion-depth bound (`fuel`); the
exported entry points instantiate it with `3 * input.length + 4`, which is
shown to be large enough (`get_family_fuel_sufficient` and its siblings), so
the bound is an implementation device of the embedding, not a semantic
restriction.
-/

namespace BitTorrent

/-! ## Byte-level constants (src/bencode/core.rs) -/

def INT : Nat := 105
def END : Nat := 101
def LIST : Nat := 108
def DICT : Nat := 100

/-- usize on the 64-bit targets this crate is built for. -/
def USIZE : Nat := 2 ^ 64

def isDigit (b : Nat) : Bool := 48 ≤ b && b ≤ 57

/-! ## Bencode type tags and errors (core.rs / error.rs) -/

inductive BencodeType where
  | Integer
  | ByteString
  | List
  | Dict
deriving DecidableEq, Repr

inductive ReceivedBencodeType where
  | Known : BencodeType → ReceivedBencodeType
  | Unknown : Nat → ReceivedBencodeType
deriving DecidableEq, Repr

/-- BencodeType::from_byte. -/
def BencodeType.from_byte (b : Nat) : Option BencodeType :=
  if b = INT then some .Integer
  else if b = LIST then some .List
  else if b = DICT then some .Dict
  else if isDigit b then some .ByteString
  else none

/-- BencodeType::from_byte_to_received. -/
def BencodeType.from_byte_to_received (b : Nat) : ReceivedBencodeType :=
  match BencodeType.from_byte b with
  | some t => .Known t
  | none => .Unknown b

/-- Decode-side error taxonomy of error.rs; `CannotParseInteger` stands for the
wrapped `std::num::ParseIntError` (its inner detail is not observed by any
claim). -/
inductive BencodeError where
  | UnexpectedEof
  | CannotParseInteger
  | LenSeparatorMissing
  | InvalidLen : Nat → BencodeError
  | InvalidInteger : Nat → BencodeError
  | InvalidIntegerLeadingZero
  | UnexpectedBencodeType : Option BencodeType → ReceivedBencodeType → BencodeError
  | InvalidKey : ReceivedBencodeType → BencodeError
deriving DecidableEq, Repr

/-- Outcome of a deserializer method: success and error both report the value
of the `pos` field after the call; `panicked` records a process abort;
`outOfFuel` is the embedding's recursion-depth marker, proved unreachable for
the exported entry points. -/
inductive PResult (α : Type) where
  | ok : α → Nat → PResult α
  | err : BencodeError → Nat → PResult α
  | panicked : PResult α
  | outOfFuel : PResult α
deriving DecidableEq, Repr

def PResult.mapVal (f : α → β) : PResult α → PResult β
  | .ok a p => .ok (f a) p
  | .err e p => .err e p
  | .panicked => .panicked
  | .outOfFuel => .outOfFuel

/-! ## Scalar parsing helpers

The Rust loops that scan forward over the buffer are rendered as structural
recursion over the corresponding suffix of the input list. -/

/-- Offset of the first occurrence of byte `b` in `l`
(`input[pos..].iter().position(|&x| x == b':')`). -/
def findByte (b : Nat) : List Nat → Option Nat
  | [] => none
  | c :: rest => if c = b then some 0 else (findByte b rest).map (· + 1)

/-- First non-ASCII-digit byte of `l`, if any (the length-digit check loop of
`parse_bytes`). -/
def firstNonDigit : List Nat → Option Nat
  | [] => none
  | c :: rest => if isDigit c then firstNonDigit rest else some c

/-- Scanning loop of `parse_integer`: starting two bytes after the tag, find
the offset of the terminating `e`, requiring every byte before it to be an
ASCII digit. -/
def scanIntegerEnd : List Nat → Except BencodeError Nat
  | [] => .error .UnexpectedEof
  | c :: rest =>
    if c = END then .ok 0
    else if isDigit c then (scanIntegerEnd rest).map (· + 1)
    else .error (.InvalidInteger c)

/-- Value of a digit string, or `none` on the first non-digit
(`str::parse` digit accumulation; overflow is checked by the callers against
the relevant integer width, which is equivalent because accumulation is
monotone). -/
def parseDigitsAux (acc : Nat) : List Nat → Option Nat
  | [] => some acc
  | c :: rest => if isDigit c then parseDigitsAux (acc * 10 + (c - 48)) rest else none

def parseDigits : List Nat → Option Nat
  | [] => none
  | l => parseDigitsAux 0 l

/-- Behaviour of `str::parse::<i64>` on the scanned token: optional sign, one
or more digits, 64-bit signed range. -/
def parse_i64 (s : List Nat) : Option Int :=
  match s with
  | [] => none
  | c :: rest =>
    if c = 45 then
      (parseDigits rest).bind fun n => if n ≤ 2 ^ 63 then some (-(n : Int)) else none
    else if c = 43 then
      (parseDigits rest).bind fun n => if n ≤ 2 ^ 63 - 1 then some ((n : Int)) else none
    else
      (parseDigits s).bind fun n => if n ≤ 2 ^ 63 - 1 then some ((n : Int)) else none

/-- Slice `input[a..b]` of a byte buffer. -/
def sliceL (input : List Nat) (a b : Nat) : List Nat := (input.drop a).take (b - a)

/-- BencodeDeserializer::check_type.  Every Rust call site establishes
`pos < input.len()` first, so the `input[self.pos]` index is in bounds. -/
def check_type (input : List Nat) (pos : Nat) (expected : BencodeType) : Option BencodeError :=
  if BencodeType.from_byte (input.getD pos 0) = some expected then none
  else some (.UnexpectedBencodeType (some expected)
    (BencodeType.from_byte_to_received (input.getD pos 0)))

/-! ## Scalar parsers (core.rs) -/

/-- BencodeDeserializer::parse_integer. -/
def parse_integer (input : List Nat) (pos : Nat) : PResult Int :=
  if input.length < pos + 2 then .err .UnexpectedEof pos
  else
    match check_type input pos .Integer with
    | some e => .err e pos
    | none =>
      match scanIntegerEnd (input.drop (pos + 2)) with
      | .error e => .err e pos
      | .ok off =>
        let end_pos := pos + 2 + off
        let s := sliceL input (pos + 1) end_pos
        if 1 < s.length ∧ s.getD 0 0 = 48 then .err .InvalidIntegerLeadingZero pos
        else
          match parse_i64 s with
          | none => .err .CannotParseInteger pos
          | some v => .ok v (end_pos + 1)

/-- BencodeDeserializer::parse_bytes.  The `end_index` computation
`colon_index + 1 + length` is a `usize` addition: when it exceeds
`usize::MAX` a debug build aborts on the add and a release build wraps, after
which the `&input[colon_index + 1..end_index]` slice has its start beyond its
end and aborts — either way the process panics, recorded as `panicked`. -/
def parse_bytes (input : List Nat) (pos : Nat) : PResult (List Nat) :=
  if input.length < pos then .err .UnexpectedEof pos
  else
    match findByte 58 (input.drop pos) with
    | none => .err .LenSeparatorMissing pos
    | some off =>
      let colon_index := pos + off
      let len_slice := sliceL input pos colon_index
      match firstNonDigit len_slice with
      | some c => .err (.InvalidLen c) pos
      | none =>
        match parseDigits len_slice with
        | none => .err .CannotParseInteger pos
        | some length =>
          if USIZE ≤ length then .err .CannotParseInteger pos
          else if USIZE ≤ colon_index + 1 + length then .panicked
          else
            let end_index := colon_index + 1 + length
            if input.length < end_index then .err .UnexpectedEof pos
            else .ok (sliceL input (colon_index + 1) end_index) end_index

/-! Sanity checks against the unit tests of core.rs. -/

example : parse_integer [105, 52, 50, 101] 0 = .ok 42 4 := by decide
example : parse_integer [105, 48, 101] 0 = .ok 0 3 := by decide
example : parse_integer [105, 45, 51, 50, 48, 48, 101] 0 = .ok (-3200) 7 := by decide
example : parse_integer [105, 48, 48, 48, 53, 48, 48, 101] 0
    = .err .InvalidIntegerLeadingZero 0 := by decide
example : parse_integer [105, 45, 101] 0 = .err .CannotParseInteger 0 := by decide
example : parse_integer [105, 45] 0 = .err .UnexpectedEof 0 := by decide
example : parse_integer [105, 49] 0 = .err .UnexpectedEof 0 := by decide
example : parse_integer [105, 101] 0 = .err .UnexpectedEof 0 := by decide
example : parse_bytes [49, 58, 97] 0 = .ok [97] 3 := by decide
example : parse_bytes [48, 58] 0 = .ok [] 2 := by decide
example : parse_bytes [50, 58, 97] 0 = .err .UnexpectedEof 0 := by decide
example : parse_bytes [45, 49, 58, 97] 0 = .err (.InvalidLen 45) 0 := by decide
example : parse_bytes [50, 97, 97] 0 = .err .LenSeparatorMissing 0 := by decide

/-! ## The generic value tree (enum Bencode of core.rs)

`Dict` is a `BTreeMap<&[u8], Bencode>` in the source; it is modelled as an
association list that the parser maintains sorted by key via `btreeInsert`,
which is how a `BTreeMap` iterates. -/

inductive Bencode where
  | Integer : Int → Bencode
  | Bytes : List Nat → Bencode
  | List : List Bencode → Bencode
  | Dict : List (List Nat × Bencode) → Bencode

mutual
def beqBencode : Bencode → Bencode → Bool
  | .Integer a, .Integer b => a == b
  | .Bytes a, .Bytes b => a == b
  | .List a, .List b => beqBencodeList a b
  | .Dict a, .Dict b => beqBencodeDict a b
  | _, _ => false
def beqBencodeList : List Bencode → List Bencode → Bool
  | [], [] => true
  | a :: as, b :: bs => beqBencode a b && beqBencodeList as bs
  | _, _ => false
def beqBencodeDict : List (List Nat × Bencode) → List (List Nat × Bencode) → Bool
  | [], [] => true
  | (ka, va) :: as, (kb, vb) :: bs =>
    ka == kb && beqBencode va vb && beqBencodeDict as bs
  | _, _ => false
end

mutual
theorem beqBencode_iff : ∀ a b : Bencode, beqBencode a b = true ↔ a = b
  | .Integer a, .Integer b => by simp [beqBencode]
  | .Integer _, .Bytes _ => by simp [beqBencode]
  | .Integer _, .List _ => by simp [beqBencode]
  | .Integer _, .Dict _ => by simp [beqBencode]
  | .Bytes _, .Integer _ => by simp [beqBencode]
  | .Bytes a, .Bytes b => by simp [beqBencode]
  | .Bytes _, .List _ => by simp [beqBencode]
  | .Bytes _, .Dict _ => by simp [beqBencode]
  | .List _, .Integer _ => by simp [beqBencode]
  | .List _, .Bytes _ => by simp [beqBencode]
  | .List a, .List b => by simp [beqBencode, beqBencodeList_iff a b]
  | .List _, .Dict _ => by simp [beqBencode]
  | .Dict _, .Integer _ => by simp [beqBencode]
  | .Dict _, .Bytes _ => by simp [beqBencode]
  | .Dict _, .List _ => by simp [beqBencode]
  | .Dict a, .Dict b => by simp [beqBencode, beqBencodeDict_iff a b]
theorem beqBencodeList_iff : ∀ a b : List Bencode, beqBencodeList a b = true ↔ a = b
  | [], [] => by simp [beqBencodeList]
  | [], _ :: _ => by simp [beqBencodeList]
  | _ :: _, [] => by simp [beqBencodeList]
  | a :: as, b :: bs => by
    simp [beqBencodeList, beqBencode_iff a b, beqBencodeList_iff as bs]
theorem beqBencodeDict_iff :
    ∀ a b : List (List Nat × Bencode), beqBencodeDict a b = true ↔ a = b
  | [], [] => by simp [beqBencodeDict]
  | [], _ :: _ => by simp [beqBencodeDict]
  | _ :: _, [] => by simp [beqBencodeDict]
  | (ka, va) :: as, (kb, vb) :: bs => by
    simp [beqBencodeDict, beqBencode_iff va vb, beqBencodeDict_iff as bs, and_assoc]
end

instance : DecidableEq Bencode := fun a b =>
  decidable_of_iff (beqBencode a b = true) (beqBencode_iff a b)

/-! ## Raw-byte ordering (Ord on Vec of u8: lexicographic) -/

def bytesLe : List Nat → List Nat → Bool
  | [], _ => true
  | _ :: _, [] => false
  | a :: as, b :: bs => decide (a < b) || (decide (a = b) && bytesLe as bs)

def bytesLt : List Nat → List Nat → Bool
  | [], [] => false
  | [], _ :: _ => true
  | _ :: _, [] => false
  | a :: as, b :: bs => decide (a < b) || (decide (a = b) && bytesLt as bs)

theorem bytesLe_total : ∀ a b : List Nat, bytesLe a b = true ∨ bytesLe b a = true
  | [], _ => .inl rfl
  | _ :: _, [] => .inr rfl
  | a :: as, b :: bs => by
    rcases Nat.lt_trichotomy a b with h | h | h
    · exact .inl (by simp [bytesLe, h])
    · subst h
      rcases bytesLe_total as bs with h2 | h2
      · exact .inl (by simp [bytesLe, h2])
      · exact .inr (by simp [bytesLe, h2])
    · exact .inr (by simp [bytesLe, h])

theorem bytesLe_trans : ∀ a b c : List Nat,
    bytesLe a b = true → bytesLe b c = true → bytesLe a c = true
  | [], _, _, _, _ => rfl
  | _ :: _, [], _, h, _ => by simp [bytesLe] at h
  | _ :: _, _ :: _, [], _, h => by simp [bytesLe] at h
  | a :: as, b :: bs, c :: cs, h1, h2 => by
    simp only [bytesLe, Bool.or_eq_true, Bool.and_eq_true, decide_eq_true_eq] at h1 h2 ⊢
    rcases h1 with h1 | ⟨rfl, h1⟩
    · rcases h2 with h2 | ⟨rfl, h2⟩
      · exact .inl (h1.trans h2)
      · exact .inl h1
    · rcases h2 with h2 | ⟨rfl, h2⟩
      · exact .inl h2
      · exact .inr ⟨rfl, bytesLe_trans as bs cs h1 h2⟩

theorem bytesLe_antisymm : ∀ a b : List Nat,
    bytesLe a b = true → bytesLe b a = true → a = b
  | [], [], _, _ => rfl
  | [], _ :: _, _, h => by simp [bytesLe] at h
  | _ :: _, [], h, _ => by simp [bytesLe] at h
  | a :: as, b :: bs, h1, h2 => by
    simp only [bytesLe, Bool.or_eq_true, Bool.and_eq_true, decide_eq_true_eq] at h1 h2
    rcases h1 with h1 | ⟨rfl, h1⟩
    · rcases h2 with h2 | ⟨h2, _⟩
      · omega
      · omega
    · rcases h2 with h2 | ⟨_, h2⟩
      · omega
      · exact congrArg (a :: ·) (bytesLe_antisymm as bs h1 h2)

theorem bytesLt_le : ∀ a b : List Nat, bytesLt a b = true → bytesLe a b = true
  | [], _, _ => rfl
  | _ :: _, [], h => by simp [bytesLt] at h
  | a :: as, b :: bs, h => by
    simp only [bytesLt, Bool.or_eq_true, Bool.and_eq_true, decide_eq_true_eq] at h
    rcases h with h | ⟨rfl, h⟩
    · simp [bytesLe, h]
    · simp [bytesLe, bytesLt_le as bs h]

theorem bytesLt_ne : ∀ a b : List Nat, bytesLt a b = true → a ≠ b
  | [], [], h => by simp [bytesLt] at h
  | [], _ :: _, _ => by simp
  | _ :: _, [], h => by simp [bytesLt] at h
  | a :: as, b :: bs, h => by
    simp only [bytesLt, Bool.or_eq_true, Bool.and_eq_true, decide_eq_true_eq] at h
    rcases h with h | ⟨rfl, h⟩
    · intro hc
      injection hc with h1 _
      omega
    · intro hc
      injection hc with _ h2
      exact bytesLt_ne as bs h h2

theorem bytesLt_of_le_ne : ∀ a b : List Nat,
    bytesLe a b = true → a ≠ b → bytesLt a b = true
  | [], [], _, hne => absurd rfl hne
  | [], _ :: _, _, _ => rfl
  | _ :: _, [], h, _ => by simp [bytesLe] at h
  | a :: as, b :: bs, h, hne => by
    simp only [bytesLe, Bool.or_eq_true, Bool.and_eq_true, decide_eq_true_eq] at h
    simp only [bytesLt, Bool.or_eq_true, Bool.and_eq_true, decide_eq_true_eq]
    rcases h with h | ⟨rfl, h⟩
    · exact .inl h
    · refine .inr ⟨rfl, bytesLt_of_le_ne as bs h ?_⟩
      intro hc
      exact hne (congrArg (a :: ·) hc)

/-! ## Decimal rendering (format strings of ser.rs) -/

/-- Recursion on the first argument (a bound on the number of digits) keeps
the definition structural, so that concrete encodings evaluate by kernel
reduction; `natToDigits` instantiates the bound with `n + 1`, which
`natToDigitsAux_eq` shows is always enough. -/
def natToDigitsAux : Nat → Nat → List Nat
  | 0, _ => []
  | bound + 1, n =>
    if n < 10 then [48 + n]
    else natToDigitsAux bound (n / 10) ++ [48 + n % 10]

/-- ASCII decimal digits of `n` (the rendering of `format` on an unsigned
integer). -/
def natToDigits (n : Nat) : List Nat := natToDigitsAux (n + 1) n

theorem natToDigitsAux_eq (bound₁ bound₂ n : Nat) (h₁ : n < bound₁) (h₂ : n < bound₂) :
    natToDigitsAux bound₁ n = natToDigitsAux bound₂ n := by
  induction bound₁ generalizing bound₂ n with
  | zero => omega
  | succ b ih =>
    cases bound₂ with
    | zero => omega
    | succ b₂ =>
      simp only [natToDigitsAux]
      by_cases hn : n < 10
      · simp [hn]
      · simp only [hn, if_false]
        rw [ih b₂ (n / 10) (by omega) (by omega)]

/-- ASCII rendering of a signed integer (`format` on i64). -/
def intToAscii (i : Int) : List Nat :=
  if i < 0 then 45 :: natToDigits i.natAbs else natToDigits i.toNat

/-! ## The serializer (src/bencode/serde/ser.rs) -/

/-- Pre-serialized map key: (length-prefix bytes, raw key bytes). -/
abbrev PreSerializeKey := List Nat × List Nat

/-- KeySerializer::serialize_bytes: the length-prefix rendering and the raw
key bytes, kept separate until the map is finished. -/
def serializeKey (k : List Nat) : PreSerializeKey :=
  (natToDigits k.length ++ [58], k)

/-- Ordering used by BencodeMapSerializer::finish:
`a.0.1.cmp(&b.0.1)`, i.e. comparison of the raw key bytes. -/
def keyLe (a b : PreSerializeKey × List Nat) : Prop :=
  bytesLe a.1.2 b.1.2 = true

instance : DecidableRel keyLe := fun a b => by
  unfold keyLe
  infer_instance

instance : IsTotal (PreSerializeKey × List Nat) keyLe :=
  ⟨fun a b => bytesLe_total a.1.2 b.1.2⟩

instance : IsTrans (PreSerializeKey × List Nat) keyLe :=
  ⟨fun a b c => bytesLe_trans a.1.2 b.1.2 c.1.2⟩

/-- BencodeMapSerializer::finish: sort the buffered (pre-serialized key,
serialized value) pairs by raw key bytes, then emit `d`, the entries, and `e`.
The sort is `sort_unstable_by` in the source; it is modelled by insertion
sort, which agrees with any sorting algorithm whenever the keys are distinct
(the only inputs the claims quantify over, since they arise from maps). -/
def BencodeMapSerializer.finish (key_values : List (PreSerializeKey × List Nat)) : List Nat :=
  let sorted := key_values.insertionSort keyLe
  DICT :: (sorted.map fun kv => kv.1.1 ++ kv.1.2 ++ kv.2).flatten ++ [END]

/-! Serialization of a generic value through `to_bencode`
(BencodeSerializer: serialize_i64 / serialize_bytes / serialize_seq /
serialize_map with KeySerializer on the keys). -/

mutual
def to_bencode : Bencode → List Nat
  | .Integer i => INT :: intToAscii i ++ [END]
  | .Bytes s => natToDigits s.length ++ 58 :: s
  | .List xs => LIST :: encodeElems xs ++ [END]
  | .Dict kvs => BencodeMapSerializer.finish (encodeEntries kvs)
def encodeElems : List Bencode → List Nat
  | [] => []
  | x :: xs => to_bencode x ++ encodeElems xs
def encodeEntries : List (List Nat × Bencode) → List (PreSerializeKey × List Nat)
  | [] => []
  | (k, v) :: rest => (serializeKey k, to_bencode v) :: encodeEntries rest
end

/-! Sanity checks: the concrete scenarios of the specification. -/

example : to_bencode (.Integer 42) = [105, 52, 50, 101] := by decide
example :
    to_bencode (.Dict [([115, 112, 97, 109], .Bytes [101, 103, 103, 115]),
      ([99, 111, 119], .Bytes [109, 111, 111])])
    = [100, 51, 58, 99, 111, 119, 51, 58, 109, 111, 111,
       52, 58, 115, 112, 97, 109, 52, 58, 101, 103, 103, 115, 101] := by decide

/-! ## Well-formed model values

A value is well-formed when every integer fits in i64 (the Rust payload type)
and every dictionary's keys are strictly ascending in raw byte order — the
canonical representation of a `BTreeMap`/logical map as an association
list. -/

/-- Keys strictly ascending (adjacent comparison; transitivity gives the full
pairwise ordering). -/
def keysAscB : List (List Nat × Bencode) → Bool
  | [] => true
  | [_] => true
  | (k1, _) :: (k2, v2) :: rest =>
    bytesLt k1 k2 && keysAscB ((k2, v2) :: rest)

mutual
def wfB : Bencode → Bool
  | .Integer i => decide (-(2 ^ 63 : Int) ≤ i) && decide (i ≤ 2 ^ 63 - 1)
  | .Bytes _ => true
  | .List xs => wfListB xs
  | .Dict kvs => keysAscB kvs && wfDictB kvs
def wfListB : List Bencode → Bool
  | [] => true
  | x :: xs => wfB x && wfListB xs
def wfDictB : List (List Nat × Bencode) → Bool
  | [] => true
  | (_, v) :: rest => wfB v && wfDictB rest
end

/-! ## Generic tree parsing (get_any / get_list / get_dict of core.rs)

The first argument of each function is the structural recursion-depth bound;
the un-suffixed entry points below instantiate it with a proven-sufficient
value, so it never affects the modelled behaviour. -/

/-- BTreeMap::insert on the sorted association list representing the map:
insert in key order, replacing the value on an equal key. -/
def btreeInsert (k : List Nat) (v : Bencode) :
    List (List Nat × Bencode) → List (List Nat × Bencode)
  | [] => [(k, v)]
  | (k', v') :: rest =>
    if bytesLt k k' then (k, v) :: (k', v') :: rest
    else if k = k' then (k, v) :: rest
    else (k', v') :: btreeInsert k v rest

mutual
/-- BencodeDeserializer::get_any (dispatch on the tag byte; `get_integer` and
`get_bytes` are inlined as the corresponding scalar parser wrapped in the
value constructor, exactly their one-line bodies). -/
def get_anyF : Nat → List Nat → Nat → PResult Bencode
  | 0, _, _ => .outOfFuel
  | fuel + 1, input, pos =>
    match input[pos]? with
    | none => .err .UnexpectedEof pos
    | some b =>
      if b = INT then (parse_integer input pos).mapVal Bencode.Integer
      else if b = LIST then get_listF fuel input pos
      else if b = DICT then get_dictF fuel input pos
      else if isDigit b then (parse_bytes input pos).mapVal Bencode.Bytes
      else .err (.UnexpectedBencodeType none (BencodeType.from_byte_to_received b)) pos

  termination_by structural fuel => fuel
/-- BencodeDeserializer::get_list: bounds check (one byte for `l`, one for
`e`), tag check, advance past `l`, then the item loop. -/
def get_listF : Nat → List Nat → Nat → PResult Bencode
  | 0, _, _ => .outOfFuel
  | fuel + 1, input, pos =>
    if input.length < pos + 2 then .err .UnexpectedEof pos
    else
      match check_type input pos .List with
      | some e => .err e pos
      | none => (get_listItemsF fuel input (pos + 1)).mapVal Bencode.List

  termination_by structural fuel => fuel
/-- The `while self.input.get(self.pos) != Some(&END)` loop of get_list; on
seeing `e` the cursor advances past it. -/
def get_listItemsF : Nat → List Nat → Nat → PResult (List Bencode)
  | 0, _, _ => .outOfFuel
  | fuel + 1, input, pos =>
    if input[pos]? = some END then .ok [] (pos + 1)
    else
      match get_anyF fuel input pos with
      | .ok item p => (get_listItemsF fuel input p).mapVal (item :: ·)
      | .err e p => .err e p
      | .panicked => .panicked
      | .outOfFuel => .outOfFuel

  termination_by structural fuel => fuel
/-- BencodeDeserializer::get_dict: bounds check, tag check, advance past `d`,
then the entry loop.  Note that, unlike get_list, the source returns as soon
as the loop sees the closing `e` and never advances the cursor past it. -/
def get_dictF : Nat → List Nat → Nat → PResult Bencode
  | 0, _, _ => .outOfFuel
  | fuel + 1, input, pos =>
    if input.length < pos + 2 then .err .UnexpectedEof pos
    else
      match check_type input pos .Dict with
      | some e => .err e pos
      | none => (get_dictItemsF fuel input (pos + 1) []).mapVal Bencode.Dict

  termination_by structural fuel => fuel
/-- The entry loop of get_dict: parse a byte-string key, parse any value,
`map.insert` the pair, repeat until the closing `e` — on which the cursor is
left in place (`acc` is the BTreeMap built so far). -/
def get_dictItemsF : Nat → List Nat → Nat → List (List Nat × Bencode) →
    PResult (List (List Nat × Bencode))
  | 0, _, _, _ => .outOfFuel
  | fuel + 1, input, pos, acc =>
    if input[pos]? = some END then .ok acc pos
    else
      match parse_bytes input pos with
      | .ok key p1 =>
        match get_anyF fuel input p1 with
        | .ok value p2 => get_dictItemsF fuel input p2 (btreeInsert key value acc)
        | .err e p => .err e p
        | .panicked => .panicked
        | .outOfFuel => .outOfFuel
      | .err e p => .err e p
      | .panicked => .panicked
      | .outOfFuel => .outOfFuel
  termination_by structural fuel => fuel
end

/-! ## Structural skip (skip_value of core.rs) -/

mutual
/-- BencodeDeserializer::skip_value. -/
def skip_valueF : Nat → List Nat → Nat → PResult Unit
  | 0, _, _ => .outOfFuel
  | fuel + 1, input, pos =>
    match input[pos]? with
    | none => .err .UnexpectedEof pos
    | some b =>
      if b = INT then (parse_integer input pos).mapVal fun _ => ()
      else if b = LIST then skip_listItemsF fuel input (pos + 1)
      else if b = DICT then skip_dictItemsF fuel input (pos + 1)
      else if isDigit b then (parse_bytes input pos).mapVal fun _ => ()
      else .err (.UnexpectedBencodeType none (BencodeType.from_byte_to_received b)) pos

  termination_by structural fuel => fuel
/-- The list arm of skip_value after `pos += 1`:
`while pos < len && input[pos] != END { skip_value()? }` then consume the
`e` or report end of input. -/
def skip_listItemsF : Nat → List Nat → Nat → PResult Unit
  | 0, _, _ => .outOfFuel
  | fuel + 1, input, pos =>
    if pos < input.length ∧ input.getD pos 0 ≠ END then
      match skip_valueF fuel input pos with
      | .ok _ p => skip_listItemsF fuel input p
      | .err e p => .err e p
      | .panicked => .panicked
      | .outOfFuel => .outOfFuel
    else if pos < input.length then .ok () (pos + 1)
    else .err .UnexpectedEof pos

  termination_by structural fuel => fuel
/-- The dict arm of skip_value after `pos += 1`: skip a key (any value
type!), then a value, until the closing `e`. -/
def skip_dictItemsF : Nat → List Nat → Nat → PResult Unit
  | 0, _, _ => .outOfFuel
  | fuel + 1, input, pos =>
    if pos < input.length ∧ input.getD pos 0 ≠ END then
      match skip_valueF fuel input pos with
      | .ok _ p1 =>
        if p1 < input.length then
          match skip_valueF fuel input p1 with
          | .ok _ p2 => skip_dictItemsF fuel input p2
          | .err e p => .err e p
          | .panicked => .panicked
          | .outOfFuel => .outOfFuel
        else .err .UnexpectedEof p1
      | .err e p => .err e p
      | .panicked => .panicked
      | .outOfFuel => .outOfFuel
    else if pos < input.length then .ok () (pos + 1)
    else .err .UnexpectedEof pos
  termination_by structural fuel => fuel
end

/-! ## The serde-driven decode entry point (serde/de.rs, deser.rs)

This is the decoder behind `Deserialize` impls: `deserialize_any` dispatches
on the tag; lists and dicts go through `BencodeSeqAccess`, whose
`next_element_seed`/`next_key_seed` consume the closing `e`, and whose
`next_key_seed` rejects non-byte-string keys with `InvalidKey`.  Decoding
into the generic value tree realizes the visitor with the `Bencode`
constructors; a dict's entries are delivered (and here collected) in parse
order. -/

/-- The method `check_for_container_type` is called by `deserialize_seq` and
`deserialize_map` but its definition is not part of the sources.
Modelled from the spec: missing `BencodeDeserializer::check_for_container_type`;
per the container discipline of §4.3 a container needs at least its tag byte
and its closing `e` inside the buffer (the same two-byte bound the generic
tree parsers check), failing with the end-of-input error otherwise. -/
def check_for_container_type (input : List Nat) (pos : Nat) : Option BencodeError :=
  if input.length < pos + 2 then some .UnexpectedEof else none

mutual
/-- deserialize_any of serde/de.rs, with the visitor building the generic
value tree. -/
def deserialize_anyF : Nat → List Nat → Nat → PResult Bencode
  | 0, _, _ => .outOfFuel
  | fuel + 1, input, pos =>
    match input[pos]? with
    | none => .err .UnexpectedEof pos
    | some b =>
      if b = INT then (parse_integer input pos).mapVal Bencode.Integer
      else if b = LIST then deserialize_seqF fuel input pos
      else if b = DICT then deserialize_mapF fuel input pos
      else if isDigit b then (parse_bytes input pos).mapVal Bencode.Bytes
      else .err (.UnexpectedBencodeType none (BencodeType.from_byte_to_received b)) pos

  termination_by structural fuel => fuel
/-- deserialize_seq: a byte string viewed as a sequence yields its bytes as
individual integer elements (`SeqDeserializer` over `u8`); otherwise the
container bounds/tag checks of `check_for_container_type` and
`BencodeSeqAccess::new_list`, then the element loop. -/
def deserialize_seqF : Nat → List Nat → Nat → PResult Bencode
  | 0, _, _ => .outOfFuel
  | fuel + 1, input, pos =>
    match input[pos]? with
    | none => .err .UnexpectedEof pos
    | some b =>
      if isDigit b then
        (parse_bytes input pos).mapVal fun s => Bencode.List (s.map Bencode.Integer)
      else
        match check_for_container_type input pos with
        | some e => .err e pos
        | none =>
          match check_type input pos .List with
          | some e => .err e pos
          | none => (seqAccessElemsF fuel input (pos + 1)).mapVal Bencode.List

  termination_by structural fuel => fuel
/-- deserialize_map: container checks of `check_for_container_type` and
`BencodeSeqAccess::new_dict`, then the key/value loop. -/
def deserialize_mapF : Nat → List Nat → Nat → PResult Bencode
  | 0, _, _ => .outOfFuel
  | fuel + 1, input, pos =>
    match check_for_container_type input pos with
    | some e => .err e pos
    | none =>
      match check_type input pos .Dict with
      | some e => .err e pos
      | none => (mapAccessEntriesF fuel input (pos + 1)).mapVal Bencode.Dict

  termination_by structural fuel => fuel
/-- SeqAccess::next_element_seed driving the element loop: a closing `e` is
consumed and ends the sequence; otherwise one element is deserialized. -/
def seqAccessElemsF : Nat → List Nat → Nat → PResult (List Bencode)
  | 0, _, _ => .outOfFuel
  | fuel + 1, input, pos =>
    if input[pos]? = some END then .ok [] (pos + 1)
    else
      match deserialize_anyF fuel input pos with
      | .ok item p => (seqAccessElemsF fuel input p).mapVal (item :: ·)
      | .err e p => .err e p
      | .panicked => .panicked
      | .outOfFuel => .outOfFuel

  termination_by structural fuel => fuel
/-- MapAccess::next_key_seed / next_value_seed driving the entry loop: a
closing `e` is consumed and ends the map; a key must start with an ASCII
digit (a byte string) or the `InvalidKey` error is reported; the key is then
deserialized (a digit tag always routes to parse_bytes) followed by the
value. -/
def mapAccessEntriesF : Nat → List Nat → Nat → PResult (List (List Nat × Bencode))
  | 0, _, _ => .outOfFuel
  | fuel + 1, input, pos =>
    if input[pos]? = some END then .ok [] (pos + 1)
    else
      match input[pos]? with
      | none => .err .UnexpectedEof pos
      | some b =>
        if isDigit b then
          match parse_bytes input pos with
          | .ok key p1 =>
            match deserialize_anyF fuel input p1 with
            | .ok value p2 => (mapAccessEntriesF fuel input p2).mapVal ((key, value) :: ·)
            | .err e p => .err e p
            | .panicked => .panicked
            | .outOfFuel => .outOfFuel
          | .err e p => .err e p
          | .panicked => .panicked
          | .outOfFuel => .outOfFuel
        else .err (.InvalidKey (BencodeType.from_byte_to_received b)) pos
  termination_by structural fuel => fuel
end

/-! ## Entry points with the recursion bound instantiated -/

/-- Depth bound sufficient for every buffer: parsing `input` from any
position nests at most three calls per remaining byte plus a constant
(`get_family_fuel_sufficient` and its siblings prove the bound is never
reached). -/
def fuelFor (input : List Nat) : Nat := 3 * input.length + 4

def get_any (input : List Nat) (pos : Nat) : PResult Bencode :=
  get_anyF (fuelFor input) input pos

def get_list (input : List Nat) (pos : Nat) : PResult Bencode :=
  get_listF (fuelFor input) input pos

def get_dict (input : List Nat) (pos : Nat) : PResult Bencode :=
  get_dictF (fuelFor input) input pos

def skip_value (input : List Nat) (pos : Nat) : PResult Unit :=
  skip_valueF (fuelFor input) input pos

def deserialize_any (input : List Nat) (pos : Nat) : PResult Bencode :=
  deserialize_anyF (fuelFor input) input pos

/-! Sanity checks: the concrete decode scenarios of the specification. -/

example : get_any [105, 52, 50, 101] 0 = .ok (.Integer 42) 4 := by decide
example : get_any [52, 58, 115, 112, 97, 109] 0
    = .ok (.Bytes [115, 112, 97, 109]) 6 := by decide
example : get_any [108, 52, 58, 115, 112, 97, 109, 52, 58, 101, 103, 103, 115, 101] 0
    = .ok (.List [.Bytes [115, 112, 97, 109], .Bytes [101, 103, 103, 115]]) 14 := by decide
example : get_any [105, 48, 51, 101] 0 = .err .InvalidIntegerLeadingZero 0 := by decide
example : deserialize_any [108, 105, 52, 50, 101, 105, 49, 50, 101, 101] 0
    = .ok (.List [.Integer 42, .Integer 12]) 10 := by decide
example : deserialize_any [100, 51, 58, 99, 111, 119, 51, 58, 109, 111, 111,
      52, 58, 115, 112, 97, 109, 52, 58, 101, 103, 103, 115, 101] 0
    = .ok (.Dict [([99, 111, 119], .Bytes [109, 111, 111]),
        ([115, 112, 97, 109], .Bytes [101, 103, 103, 115])]) 24 := by decide
example : skip_value [100, 49, 58, 97, 105, 52, 50, 101, 101] 0 = .ok () 9 := by decide

/-! ## Peer-wire message codec (src/torrent/network.rs)

The blocking reader is modelled on the stream of bytes it would consume:
`read_u32`, `read_u8` and `read_exact` fail with an end-of-file error when
the stream is too short, and `unimplemented!`/out-of-bounds slices abort the
process. -/

inductive PeerMessageType where
  | Choke
  | Unchoke
  | Interested
  | NotInterested
  | Have
  | Bitfield
  | Request
  | Piece
  | Cancel
deriving DecidableEq, Repr

/-- TryFrom of u8 for PeerMessageType. -/
def PeerMessageType.try_from (v : Nat) : Except Nat PeerMessageType :=
  if v = 0 then .ok .Choke
  else if v = 1 then .ok .Unchoke
  else if v = 2 then .ok .Interested
  else if v = 3 then .ok .NotInterested
  else if v = 4 then .ok .Have
  else if v = 5 then .ok .Bitfield
  else if v = 6 then .ok .Request
  else if v = 7 then .ok .Piece
  else if v = 8 then .ok .Cancel
  else .error v

structure PieceInfo where
  index : Nat
  begin_bytes_offset : Nat
  length_bytes : Nat
deriving DecidableEq, Repr

inductive PeerMessage where
  | Choke
  | Unchoke
  | Interested
  | NotInterested
  | Have : Nat → PeerMessage
  | Bitfield : List Nat → PeerMessage
  | Request : PieceInfo → PeerMessage
  | Piece : Nat → Nat → List Nat → PeerMessage
  | Cancel : Nat → Nat → Nat → PeerMessage
deriving DecidableEq, Repr

/-- Errors surfaced by PeerMessage::from_reader as `std::io::Error` values:
truncated reads, the InvalidData error raised on a zero length field
(the literal message is "Keep-alive not handled"), and the InvalidData error
wrapping PeerMessageTypeError::Unknown. -/
inductive PeerWireError where
  | UnexpectedEofIo
  | KeepAliveNotHandled
  | UnknownMessageType : Nat → PeerWireError
deriving DecidableEq, Repr

/-- Outcome of a reader call: a message, an io error, or a process abort. -/
inductive IoResult (α : Type) where
  | ok : α → IoResult α
  | err : PeerWireError → IoResult α
  | panicked : IoResult α
deriving DecidableEq, Repr

/-- Big-endian value of a 4-byte list (`read_u32::<BigEndian>`). -/
def be32 (l : List Nat) : Nat :=
  l.getD 0 0 * 2 ^ 24 + l.getD 1 0 * 2 ^ 16 + l.getD 2 0 * 2 ^ 8 + l.getD 3 0

/-- PeerMessage::build_from_type_and_payload.  For a Piece frame the source
slices `&payload[..8]` for the two header fields and then takes
`payload[13..64].to_vec()` as the block: the first slice aborts when the
payload is shorter than 8 bytes and the second when it is shorter than 64
bytes.  Have/Request/Cancel decoding is `unimplemented!`, also an abort. -/
def build_from_type_and_payload (message_type : PeerMessageType) (payload : List Nat) :
    IoResult PeerMessage :=
  match message_type with
  | .Choke => .ok .Choke
  | .Unchoke => .ok .Unchoke
  | .Interested => .ok .Interested
  | .NotInterested => .ok .NotInterested
  | .Have => .panicked
  | .Bitfield => .ok (.Bitfield payload)
  | .Request => .panicked
  | .Piece =>
    if payload.length < 8 then .panicked
    else if payload.length < 64 then .panicked
    else .ok (.Piece (be32 (sliceL payload 0 4)) (be32 (sliceL payload 4 8))
      (sliceL payload 13 64))
  | .Cancel => .panicked

/-- PeerMessage::from_reader on the byte stream it consumes: a 4-byte
big-endian length field; a zero length is answered with the InvalidData
"Keep-alive not handled" error; otherwise one type byte and `length - 1`
payload bytes are read and handed to build_from_type_and_payload. -/
def from_reader (stream : List Nat) : IoResult PeerMessage :=
  if stream.length < 4 then .err .UnexpectedEofIo
  else
    let length := be32 (stream.take 4)
    if length = 0 then .err .KeepAliveNotHandled
    else if stream.length < 5 then .err .UnexpectedEofIo
    else
      match PeerMessageType.try_from (stream.getD 4 0) with
      | .error b => .err (.UnknownMessageType b)
      | .ok message_type =>
        if stream.length < 5 + (length - 1) then .err .UnexpectedEofIo
        else build_from_type_and_payload message_type (sliceL stream 5 (5 + (length - 1)))

example : from_reader [0, 0, 0, 1, 2] = .ok .Interested := by decide
example : from_reader [0, 0, 0, 2, 5, 255] = .ok (.Bitfield [255]) := by decide
example : from_reader [0, 0, 0, 1, 9] = .err (.UnknownMessageType 9) := by decide

/-! # Cursor invariant machinery

`advOk pos len r` says the call that produced `r` kept the cursor inside the
buffer and moved it forward — strictly so on success; `advOkW` is the weak
variant (the dict-entry loop of get_dict can succeed without moving, since it
does not consume the closing `e`). -/

def advOk (pos len : Nat) : PResult α → Prop
  | .ok _ p => pos < p ∧ p ≤ len
  | .err _ p => pos ≤ p ∧ p ≤ len
  | .panicked => True
  | .outOfFuel => True

def advOkW (pos len : Nat) : PResult α → Prop
  | .ok _ p => pos ≤ p ∧ p ≤ len
  | .err _ p => pos ≤ p ∧ p ≤ len
  | .panicked => True
  | .outOfFuel => True

theorem advOk_mapVal {pos len : Nat} {r : PResult α} (f : α → β)
    (h : advOk pos len r) : advOk pos len (r.mapVal f) := by
  cases r <;> simpa [PResult.mapVal, advOk] using h

theorem advOk_mono {pos q len : Nat} {r : PResult α} (hq : q ≤ pos)
    (h : advOk pos len r) : advOk q len r := by
  cases r <;> simp only [advOk] at h ⊢ <;> omega

theorem advOkW_mono {pos q len : Nat} {r : PResult α} (hq : q ≤ pos)
    (h : advOkW pos len r) : advOkW q len r := by
  cases r <;> simp only [advOkW] at h ⊢ <;> omega

theorem advOk_weaken {pos len : Nat} {r : PResult α} (h : advOk pos len r) :
    advOkW pos len r := by
  cases r <;> simp only [advOk, advOkW] at h ⊢ <;> omega

theorem scanIntegerEnd_ok_lt : ∀ (l : List Nat) (off : Nat),
    scanIntegerEnd l = .ok off → off < l.length
  | [], off => by simp [scanIntegerEnd]
  | c :: rest, off => by
    simp only [scanIntegerEnd]
    split
    · intro h
      cases h
      simp
    · split
      · intro h
        cases hs : scanIntegerEnd rest with
        | error e => rw [hs] at h; cases h
        | ok off' =>
          rw [hs] at h
          cases h
          have := scanIntegerEnd_ok_lt rest off' hs
          simp
          omega
      · intro h
        cases h

theorem findByte_le : ∀ (b : Nat) (l : List Nat) (off : Nat),
    findByte b l = some off → off < l.length
  | b, [], off => by simp [findByte]
  | b, c :: rest, off => by
    simp only [findByte]
    split
    · intro h
      cases h
      simp
    · intro h
      cases hs : findByte b rest with
      | none => rw [hs] at h; cases h
      | some off' =>
        rw [hs] at h
        simp at h
        have := findByte_le b rest off' hs
        simp
        omega

/-- parse_integer keeps the cursor in bounds and strictly advances it on
success. -/
theorem parse_integer_advOk (input : List Nat) (pos : Nat) (h : pos ≤ input.length) :
    advOk pos input.length (parse_integer input pos) := by
  unfold parse_integer
  split
  · exact ⟨Nat.le_refl pos, h⟩
  next hlen =>
    split
    · exact ⟨Nat.le_refl pos, h⟩
    · split
      · exact ⟨Nat.le_refl pos, h⟩
      next off hscan =>
        have hofflt : off < (input.drop (pos + 2)).length := scanIntegerEnd_ok_lt _ _ hscan
        rw [List.length_drop] at hofflt
        simp only []
        split
        · exact ⟨Nat.le_refl pos, h⟩
        · split
          · exact ⟨Nat.le_refl pos, h⟩
          · exact ⟨by omega, by omega⟩

/-- parse_bytes keeps the cursor in bounds and strictly advances it on
success. -/
theorem parse_bytes_advOk (input : List Nat) (pos : Nat) (h : pos ≤ input.length) :
    advOk pos input.length (parse_bytes input pos) := by
  unfold parse_bytes
  split
  · exact ⟨Nat.le_refl pos, h⟩
  next hlen =>
    split
    · exact ⟨Nat.le_refl pos, h⟩
    next off hfind =>
      simp only []
      split
      · exact ⟨Nat.le_refl pos, h⟩
      · split
        · exact ⟨Nat.le_refl pos, h⟩
        · split
          · exact ⟨Nat.le_refl pos, h⟩
          · split
            · trivial
            · split
              · exact ⟨Nat.le_refl pos, h⟩
              next hend => exact ⟨by omega, by omega⟩

/-- Bounds and forward movement for the generic tree parsers, at every
recursion depth. -/
theorem get_family_advOk (fuel : Nat) : ∀ (input : List Nat) (pos : Nat),
    pos ≤ input.length →
    advOk pos input.length (get_anyF fuel input pos) ∧
    advOk pos input.length (get_listF fuel input pos) ∧
    advOk pos input.length (get_listItemsF fuel input pos) ∧
    advOk pos input.length (get_dictF fuel input pos) ∧
    ∀ acc, advOkW pos input.length (get_dictItemsF fuel input pos acc) := by
  induction fuel with
  | zero =>
    intro input pos h
    exact ⟨trivial, trivial, trivial, trivial, fun _ => trivial⟩
  | succ fuel ih =>
    intro input pos h
    refine ⟨?_, ?_, ?_, ?_, ?_⟩
    · show advOk pos input.length (get_anyF (fuel + 1) input pos)
      unfold get_anyF
      cases hb : input[pos]? with
      | none => exact ⟨Nat.le_refl pos, h⟩
      | some b =>
        simp only
        split
        · exact advOk_mapVal _ (parse_integer_advOk input pos h)
        · split
          · exact (ih input pos h).2.1
          · split
            · exact (ih input pos h).2.2.2.1
            · split
              · exact advOk_mapVal _ (parse_bytes_advOk input pos h)
              · exact ⟨Nat.le_refl pos, h⟩
    · show advOk pos input.length (get_listF (fuel + 1) input pos)
      unfold get_listF
      split
      · exact ⟨Nat.le_refl pos, h⟩
      next hlen =>
        split
        · exact ⟨Nat.le_refl pos, h⟩
        · exact advOk_mono (Nat.le_succ pos)
            (advOk_mapVal _ ((ih input (pos + 1) (by omega)).2.2.1))
    · show advOk pos input.length (get_listItemsF (fuel + 1) input pos)
      unfold get_listItemsF
      split
      next hb =>
        have : pos < input.length := by
          by_contra hc
          rw [List.getElem?_eq_none (by omega)] at hb
          cases hb
        exact ⟨by omega, by omega⟩
      · cases hga : get_anyF fuel input pos with
        | ok item p =>
          have h1 := (ih input pos h).1
          rw [hga] at h1
          have h2 := (ih input p h1.2).2.2.1
          exact advOk_mono (Nat.le_of_lt h1.1) (advOk_mapVal _ h2)
        | err e p =>
          have h1 := (ih input pos h).1
          rw [hga] at h1
          exact h1
        | panicked => trivial
        | outOfFuel => trivial
    · show advOk pos input.length (get_dictF (fuel + 1) input pos)
      unfold get_dictF
      split
      · exact ⟨Nat.le_refl pos, h⟩
      next hlen =>
        split
        · exact ⟨Nat.le_refl pos, h⟩
        · have hitems := ((ih input (pos + 1) (by omega)).2.2.2.2) []
          cases hd : get_dictItemsF fuel input (pos + 1) [] with
          | ok m p =>
            rw [hd] at hitems
            simp only [advOkW] at hitems
            exact ⟨by omega, by omega⟩
          | err e p =>
            rw [hd] at hitems
            simp only [advOkW] at hitems
            exact ⟨by omega, by omega⟩
          | panicked => trivial
          | outOfFuel => trivial
    · intro acc
      show advOkW pos input.length (get_dictItemsF (fuel + 1) input pos acc)
      unfold get_dictItemsF
      split
      · exact ⟨Nat.le_refl pos, h⟩
      · cases hkey : parse_bytes input pos with
        | ok key p1 =>
          have h1 := parse_bytes_advOk input pos h
          rw [hkey] at h1
          simp only [advOk] at h1
          dsimp only
          cases hval : get_anyF fuel input p1 with
          | ok value p2 =>
            have h2 := (ih input p1 h1.2).1
            rw [hval] at h2
            simp only [advOk] at h2
            have h3 := ((ih input p2 h2.2).2.2.2.2) (btreeInsert key value acc)
            exact advOkW_mono (by omega) h3
          | err e p =>
            have h2 := (ih input p1 h1.2).1
            rw [hval] at h2
            simp only [advOk] at h2
            simp only [advOkW]
            exact ⟨by omega, by omega⟩
          | panicked => trivial
          | outOfFuel => trivial
        | err e p =>
          have h1 := parse_bytes_advOk input pos h
          rw [hkey] at h1
          simp only [advOk] at h1
          simp only [advOkW]
          exact ⟨by omega, by omega⟩
        | panicked => trivial
        | outOfFuel => trivial

/-- Bounds and forward movement for skip_value, at every recursion depth. -/
theorem skip_family_advOk (fuel : Nat) : ∀ (input : List Nat) (pos : Nat),
    pos ≤ input.length →
    advOk pos input.length (skip_valueF fuel input pos) ∧
    advOk pos input.length (skip_listItemsF fuel input pos) ∧
    advOk pos input.length (skip_dictItemsF fuel input pos) := by
  induction fuel with
  | zero =>
    intro input pos h
    exact ⟨trivial, trivial, trivial⟩
  | succ fuel ih =>
    intro input pos h
    refine ⟨?_, ?_, ?_⟩
    · show advOk pos input.length (skip_valueF (fuel + 1) input pos)
      unfold skip_valueF
      cases hb : input[pos]? with
      | none => exact ⟨Nat.le_refl pos, h⟩
      | some b =>
        have hlt : pos < input.length := by
          by_contra hc
          rw [List.getElem?_eq_none (by omega)] at hb
          cases hb
        simp only
        split
        · exact advOk_mapVal _ (parse_integer_advOk input pos h)
        · split
          · exact advOk_mono (Nat.le_succ pos) (ih input (pos + 1) (by omega)).2.1
          · split
            · exact advOk_mono (Nat.le_succ pos) (ih input (pos + 1) (by omega)).2.2
            · split
              · exact advOk_mapVal _ (parse_bytes_advOk input pos h)
              · exact ⟨Nat.le_refl pos, h⟩
    · show advOk pos input.length (skip_listItemsF (fuel + 1) input pos)
      unfold skip_listItemsF
      split
      next hcond =>
        cases hsv : skip_valueF fuel input pos with
        | ok u p =>
          have h1 := (ih input pos h).1
          rw [hsv] at h1
          simp only [advOk] at h1
          have h2 := (ih input p h1.2).2.1
          exact advOk_mono (by omega) h2
        | err e p =>
          have h1 := (ih input pos h).1
          rw [hsv] at h1
          exact h1
        | panicked => trivial
        | outOfFuel => trivial
      · split
        next hlt => exact ⟨by omega, by omega⟩
        next hge => exact ⟨Nat.le_refl pos, h⟩
    · show advOk pos input.length (skip_dictItemsF (fuel + 1) input pos)
      unfold skip_dictItemsF
      split
      next hcond =>
        cases hsv : skip_valueF fuel input pos with
        | ok u p1 =>
          have h1 := (ih input pos h).1
          rw [hsv] at h1
          simp only [advOk] at h1
          dsimp only
          split
          next hp1 =>
            cases hsv2 : skip_valueF fuel input p1 with
            | ok u2 p2 =>
              have h2 := (ih input p1 h1.2).1
              rw [hsv2] at h2
              simp only [advOk] at h2
              have h3 := (ih input p2 h2.2).2.2
              exact advOk_mono (by omega) h3
            | err e p =>
              have h2 := (ih input p1 h1.2).1
              rw [hsv2] at h2
              simp only [advOk] at h2
              simp only [advOk]
              exact ⟨by omega, by omega⟩
            | panicked => trivial
            | outOfFuel => trivial
          next hp1 =>
            simp only [advOk]
            exact ⟨by omega, by omega⟩
        | err e p =>
          have h1 := (ih input pos h).1
          rw [hsv] at h1
          exact h1
        | panicked => trivial
        | outOfFuel => trivial
      · split
        next hlt => exact ⟨by omega, by omega⟩
        next hge => exact ⟨Nat.le_refl pos, h⟩

/-- Bounds and forward movement for the serde-driven decoder, at every
recursion depth. -/
theorem deserialize_family_advOk (fuel : Nat) : ∀ (input : List Nat) (pos : Nat),
    pos ≤ input.length →
    advOk pos input.length (deserialize_anyF fuel input pos) ∧
    advOk pos input.length (deserialize_seqF fuel input pos) ∧
    advOk pos input.length (deserialize_mapF fuel input pos) ∧
    advOk pos input.length (seqAccessElemsF fuel input pos) ∧
    advOk pos input.length (mapAccessEntriesF fuel input pos) := by
  induction fuel with
  | zero =>
    intro input pos h
    exact ⟨trivial, trivial, trivial, trivial, trivial⟩
  | succ fuel ih =>
    intro input pos h
    refine ⟨?_, ?_, ?_, ?_, ?_⟩
    · show advOk pos input.length (deserialize_anyF (fuel + 1) input pos)
      unfold deserialize_anyF
      cases hb : input[pos]? with
      | none => exact ⟨Nat.le_refl pos, h⟩
      | some b =>
        simp only
        split
        · exact advOk_mapVal _ (parse_integer_advOk input pos h)
        · split
          · exact (ih input pos h).2.1
          · split
            · exact (ih input pos h).2.2.1
            · split
              · exact advOk_mapVal _ (parse_bytes_advOk input pos h)
              · exact ⟨Nat.le_refl pos, h⟩
    · show advOk pos input.length (deserialize_seqF (fuel + 1) input pos)
      unfold deserialize_seqF
      cases hb : input[pos]? with
      | none => exact ⟨Nat.le_refl pos, h⟩
      | some b =>
        simp only
        split
        · exact advOk_mapVal _ (parse_bytes_advOk input pos h)
        · unfold check_for_container_type
          split
          · exact ⟨Nat.le_refl pos, h⟩
          next hnone =>
            have hlen : ¬input.length < pos + 2 := by
              by_contra hc
              simp [hc] at hnone
            split
            · exact ⟨Nat.le_refl pos, h⟩
            · exact advOk_mono (Nat.le_succ pos)
                (advOk_mapVal _ ((ih input (pos + 1) (by omega)).2.2.2.1))
    · show advOk pos input.length (deserialize_mapF (fuel + 1) input pos)
      unfold deserialize_mapF check_for_container_type
      split
      · exact ⟨Nat.le_refl pos, h⟩
      next hnone =>
        have hlen : ¬input.length < pos + 2 := by
          by_contra hc
          simp [hc] at hnone
        split
        · exact ⟨Nat.le_refl pos, h⟩
        · exact advOk_mono (Nat.le_succ pos)
            (advOk_mapVal _ ((ih input (pos + 1) (by omega)).2.2.2.2))
    · show advOk pos input.length (seqAccessElemsF (fuel + 1) input pos)
      unfold seqAccessElemsF
      split
      next hb =>
        have : pos < input.length := by
          by_contra hc
          rw [List.getElem?_eq_none (by omega)] at hb
          cases hb
        exact ⟨by omega, by omega⟩
      · cases hda : deserialize_anyF fuel input pos with
        | ok item p =>
          have h1 := (ih input pos h).1
          rw [hda] at h1
          simp only [advOk] at h1
          have h2 := (ih input p h1.2).2.2.2.1
          exact advOk_mono (by omega) (advOk_mapVal _ h2)
        | err e p =>
          have h1 := (ih input pos h).1
          rw [hda] at h1
          exact h1
        | panicked => trivial
        | outOfFuel => trivial
    · show advOk pos input.length (mapAccessEntriesF (fuel + 1) input pos)
      unfold mapAccessEntriesF
      split
      next hb =>
        have : pos < input.length := by
          by_contra hc
          rw [List.getElem?_eq_none (by omega)] at hb
          cases hb
        exact ⟨by omega, by omega⟩
      · cases hb : input[pos]? with
        | none => exact ⟨Nat.le_refl pos, h⟩
        | some b =>
          simp only
          split
          · cases hkey : parse_bytes input pos with
            | ok key p1 =>
              have h1 := parse_bytes_advOk input pos h
              rw [hkey] at h1
              simp only [advOk] at h1
              dsimp only
              cases hval : deserialize_anyF fuel input p1 with
              | ok value p2 =>
                have h2 := (ih input p1 h1.2).1
                rw [hval] at h2
                simp only [advOk] at h2
                have h3 := (ih input p2 h2.2).2.2.2.2
                exact advOk_mono (by omega) (advOk_mapVal _ h3)
              | err e p =>
                have h2 := (ih input p1 h1.2).1
                rw [hval] at h2
                simp only [advOk] at h2
                simp only [advOk]
                exact ⟨by omega, by omega⟩
              | panicked => trivial
              | outOfFuel => trivial
            | err e p =>
              have h1 := parse_bytes_advOk input pos h
              rw [hkey] at h1
              simp only [advOk] at h1
              simp only [advOk]
              exact ⟨by omega, by omega⟩
            | panicked => trivial
            | outOfFuel => trivial
          · exact ⟨Nat.le_refl pos, h⟩

/-! # Mid-buffer access kit

The round-trip and skip proofs reason about a token embedded in a larger
buffer `pre ++ mid ++ post` at cursor `pre.length`; these lemmas localize the
parsers' buffer accesses to `mid`. -/

theorem get_append_mid (pre mid post : List Nat) (i : Nat) (h : i < mid.length) :
    (pre ++ mid ++ post)[pre.length + i]? = mid[i]? := by
  rw [List.append_assoc, List.getElem?_append_right (by omega)]
  rw [show pre.length + i - pre.length = i by omega]
  rw [List.getElem?_append_left h]

theorem getD_append_mid (pre mid post : List Nat) (i : Nat) (h : i < mid.length) :
    (pre ++ mid ++ post).getD (pre.length + i) 0 = mid.getD i 0 := by
  rw [List.getD_eq_getElem?_getD, List.getD_eq_getElem?_getD, get_append_mid pre mid post i h]

theorem drop_append_mid (pre mid post : List Nat) (i : Nat) (h : i ≤ mid.length) :
    (pre ++ mid ++ post).drop (pre.length + i) = mid.drop i ++ post := by
  rw [List.append_assoc, List.drop_append, List.drop_append_of_le_length h]

theorem slice_append_mid (pre mid post : List Nat) (a b : Nat) (h : b ≤ mid.length) :
    sliceL (pre ++ mid ++ post) (pre.length + a) (pre.length + b) = sliceL mid a b := by
  unfold sliceL
  by_cases hab : a ≤ mid.length
  · rw [drop_append_mid pre mid post a hab]
    rw [show pre.length + b - (pre.length + a) = b - a by omega]
    exact List.take_append_of_le_length (by simp; omega)
  · rw [show pre.length + b - (pre.length + a) = b - a by omega]
    rw [show b - a = 0 by omega]
    simp

theorem length_append3 (pre mid post : List Nat) :
    (pre ++ mid ++ post).length = pre.length + mid.length + post.length := by
  simp
  omega

/-! # Decimal digit facts -/

theorem natToDigitsAux_ne_nil (bound n : Nat) (h : n < bound) :
    natToDigitsAux bound n ≠ [] := by
  cases bound with
  | zero => omega
  | succ b =>
    unfold natToDigitsAux
    split
    · simp
    · simp

theorem natToDigits_ne_nil (n : Nat) : natToDigits n ≠ [] :=
  natToDigitsAux_ne_nil (n + 1) n (Nat.lt_succ_self n)

theorem natToDigitsAux_digits (bound : Nat) : ∀ (n : Nat), n < bound →
    ∀ c ∈ natToDigitsAux bound n, isDigit c = true := by
  induction bound with
  | zero => omega
  | succ b ih =>
    intro n hn c hc
    unfold natToDigitsAux at hc
    split at hc
    · next h10 =>
      simp at hc
      subst hc
      simp [isDigit]
      omega
    · next h10 =>
      rw [List.mem_append] at hc
      rcases hc with hc | hc
      · exact ih (n / 10) (by omega) c hc
      · simp at hc
        subst hc
        simp [isDigit]
        omega

theorem natToDigits_digits (n : Nat) : ∀ c ∈ natToDigits n, isDigit c = true :=
  natToDigitsAux_digits (n + 1) n (Nat.lt_succ_self n)

theorem getD_append_of_ne_nil {l l₂ : List Nat} (h : l ≠ []) :
    (l ++ l₂).getD 0 0 = l.getD 0 0 := by
  cases l with
  | nil => exact absurd rfl h
  | cons c rest => rfl

theorem natToDigitsAux_head_ne_48 (bound : Nat) : ∀ (n : Nat), n < bound → 1 ≤ n →
    (natToDigitsAux bound n).getD 0 0 ≠ 48 := by
  induction bound with
  | zero => omega
  | succ b ih =>
    intro n hn h1
    unfold natToDigitsAux
    split
    · next h10 =>
      simp [List.getD]
      omega
    · next h10 =>
      rw [getD_append_of_ne_nil (natToDigitsAux_ne_nil b (n / 10) (by omega))]
      exact ih (n / 10) (by omega) (by omega)

/-- The leading-zero test of parse_integer never fires on `format`'s output:
a multi-byte rendering starts with a nonzero digit. -/
theorem natToDigits_no_leading_zero (n : Nat) :
    ¬(1 < (natToDigits n).length ∧ (natToDigits n).getD 0 0 = 48) := by
  rintro ⟨hlen, hhead⟩
  by_cases h10 : n < 10
  · unfold natToDigits natToDigitsAux at hlen
    rw [if_pos h10] at hlen
    simp at hlen
  · exact natToDigitsAux_head_ne_48 (n + 1) n (Nat.lt_succ_self n) (by omega) hhead

theorem parseDigitsAux_all_digits : ∀ (l : List Nat) (acc : Nat),
    (∀ c ∈ l, isDigit c = true) →
    parseDigitsAux acc l = some (l.foldl (fun a c => a * 10 + (c - 48)) acc)
  | [], acc, _ => rfl
  | c :: rest, acc, h => by
    unfold parseDigitsAux
    rw [if_pos (h c (by simp))]
    rw [parseDigitsAux_all_digits rest (acc * 10 + (c - 48)) (fun d hd => h d (by simp [hd]))]
    rfl

theorem natToDigitsAux_foldl (bound : Nat) : ∀ (n acc : Nat), n < bound →
    (natToDigitsAux bound n).foldl (fun a c => a * 10 + (c - 48)) acc
      = acc * 10 ^ (natToDigitsAux bound n).length + n := by
  induction bound with
  | zero => omega
  | succ b ih =>
    intro n acc hn
    unfold natToDigitsAux
    split
    · next h10 =>
      simp only [List.foldl_cons, List.foldl_nil, List.length_cons,
        List.length_nil, Nat.zero_add, Nat.pow_one]
      omega
    · next h10 =>
      rw [List.foldl_append]
      rw [ih (n / 10) acc (by omega)]
      simp only [List.foldl, List.length_append, List.length_cons, List.length_nil]
      have h48 : 48 + n % 10 - 48 = n % 10 := by omega
      rw [h48]
      have hdiv : n / 10 * 10 + n % 10 = n := by omega
      calc (acc * 10 ^ (natToDigitsAux b (n / 10)).length + n / 10) * 10 + n % 10
          = acc * 10 ^ (natToDigitsAux b (n / 10)).length * 10
            + (n / 10 * 10 + n % 10) := by ring
        _ = acc * 10 ^ ((natToDigitsAux b (n / 10)).length + (0 + 1)) + n := by
            rw [hdiv, Nat.pow_succ]
            ring_nf

/-- Parsing back the decimal rendering recovers the value. -/
theorem parseDigits_natToDigits (n : Nat) : parseDigits (natToDigits n) = some n := by
  have hne := natToDigits_ne_nil n
  cases hd : natToDigits n with
  | nil => exact absurd hd hne
  | cons c rest =>
    have hdig : ∀ x ∈ natToDigits n, isDigit x = true := natToDigits_digits n
    rw [hd] at hdig
    show parseDigitsAux 0 (c :: rest) = some n
    rw [parseDigitsAux_all_digits (c :: rest) 0 hdig]
    have hf := natToDigitsAux_foldl (n + 1) n 0 (Nat.lt_succ_self n)
    unfold natToDigits at hd
    rw [hd] at hf
    simp only [Nat.zero_mul, Nat.zero_add] at hf
    rw [hf]

/-! # Scalar parsers on their own encodings -/

theorem scanIntegerEnd_append : ∀ (ds rest : List Nat),
    (∀ c ∈ ds, isDigit c = true) →
    scanIntegerEnd (ds ++ 101 :: rest) = .ok ds.length
  | [], rest, _ => by simp [scanIntegerEnd, END]
  | c :: ds, rest, h => by
    have hc := h c (by simp)
    have hcne : ¬c = END := by
      simp [isDigit] at hc
      simp [END]
      omega
    simp only [List.cons_append, scanIntegerEnd, if_neg hcne, hc, if_true, List.append_eq]
    rw [scanIntegerEnd_append ds rest (fun d hd => h d (by simp [hd]))]
    simp [Except.map]

theorem findByte_append_digits : ∀ (ds rest : List Nat),
    (∀ c ∈ ds, isDigit c = true) →
    findByte 58 (ds ++ 58 :: rest) = some ds.length
  | [], rest, _ => by simp [findByte]
  | c :: ds, rest, h => by
    have hc := h c (by simp)
    have hcne : ¬c = 58 := by
      simp [isDigit] at hc
      omega
    simp only [List.cons_append, findByte, if_neg hcne, List.append_eq]
    rw [findByte_append_digits ds rest (fun d hd => h d (by simp [hd]))]
    simp

theorem firstNonDigit_none : ∀ (l : List Nat),
    (∀ c ∈ l, isDigit c = true) → firstNonDigit l = none
  | [], _ => rfl
  | c :: rest, h => by
    simp only [firstNonDigit, h c (by simp), if_true]
    exact firstNonDigit_none rest (fun d hd => h d (by simp [hd]))

theorem intToAscii_ne_nil (i : Int) : intToAscii i ≠ [] := by
  unfold intToAscii
  split
  · simp
  · exact natToDigits_ne_nil _

theorem intToAscii_tail_digits (i : Int) :
    ∀ c ∈ (intToAscii i).drop 1, isDigit c = true := by
  unfold intToAscii
  split
  · intro c hc
    simp only [List.drop_succ_cons, List.drop_zero] at hc
    exact natToDigits_digits _ c hc
  · intro c hc
    exact natToDigits_digits _ c (List.mem_of_mem_drop hc)

theorem intToAscii_no_leading_zero (i : Int) :
    ¬(1 < (intToAscii i).length ∧ (intToAscii i).getD 0 0 = 48) := by
  unfold intToAscii
  split
  · rintro ⟨-, hhead⟩
    rw [List.getD_cons_zero] at hhead
    omega
  · exact natToDigits_no_leading_zero _

theorem parseDigits_bound (l : List Nat) (n : Nat) (h : parseDigits l = some n) :
    l ≠ [] := by
  intro hl
  subst hl
  exact Option.noConfusion h

/-- The rendering of an in-range i64 parses back to itself. -/
theorem parse_i64_intToAscii (i : Int) (h1 : -(2 ^ 63 : Int) ≤ i)
    (h2 : i ≤ 2 ^ 63 - 1) : parse_i64 (intToAscii i) = some i := by
  unfold intToAscii
  split
  · next hneg =>
    show parse_i64 (45 :: natToDigits i.natAbs) = some i
    have hbound : i.natAbs ≤ 2 ^ 63 := by omega
    have habs : ((i.natAbs : Int)) = -i := by omega
    unfold parse_i64
    dsimp only
    rw [if_pos rfl, parseDigits_natToDigits, Option.some_bind, if_pos hbound, habs, neg_neg]
  · next hneg =>
    have hne := natToDigits_ne_nil i.toNat
    cases hd : natToDigits i.toNat with
    | nil => exact absurd hd hne
    | cons c rest =>
      have hc : isDigit c = true := by
        have := natToDigits_digits i.toNat c (by rw [hd]; simp)
        exact this
      have hc45 : ¬c = 45 := by
        simp [isDigit] at hc
        omega
      have hc43 : ¬c = 43 := by
        simp [isDigit] at hc
        omega
      unfold parse_i64
      simp only [if_neg hc45, if_neg hc43]
      rw [← hd, parseDigits_natToDigits]
      have hbound : i.toNat ≤ 2 ^ 63 - 1 := by omega
      simp only [Option.some_bind, if_pos hbound]
      congr 1
      omega

/-- parse_integer on the serialized form of an in-range i64 embedded in a
larger buffer: it succeeds with the value and stops one past the trailing
`e`. -/
theorem parse_integer_encode (pre post : List Nat) (i : Int)
    (h1 : -(2 ^ 63 : Int) ≤ i) (h2 : i ≤ 2 ^ 63 - 1) :
    parse_integer (pre ++ (INT :: intToAscii i ++ [END]) ++ post) pre.length
      = .ok i (pre.length + ((intToAscii i).length + 2)) := by
  obtain ⟨d0, ds, hD⟩ : ∃ d0 ds, intToAscii i = d0 :: ds := by
    cases h : intToAscii i with
    | nil => exact absurd h (intToAscii_ne_nil i)
    | cons a b => exact ⟨a, b, rfl⟩
  have hmid : INT :: intToAscii i ++ [END] = INT :: d0 :: (ds ++ [END]) := by
    rw [hD]
    simp
  have hmidlen : (INT :: intToAscii i ++ [END]).length = ds.length + 3 := by
    rw [hmid]
    simp
  have hlen : (pre ++ (INT :: intToAscii i ++ [END]) ++ post).length
      = pre.length + (ds.length + 3) + post.length := by
    rw [length_append3, hmidlen]
  unfold parse_integer
  rw [if_neg (by omega)]
  have hg : (pre ++ (INT :: intToAscii i ++ [END]) ++ post).getD pre.length 0 = INT := by
    have := getD_append_mid pre (INT :: intToAscii i ++ [END]) post 0 (by rw [hmidlen]; omega)
    rw [Nat.add_zero] at this
    rw [this]
    rfl
  have hct : check_type (pre ++ (INT :: intToAscii i ++ [END]) ++ post)
      pre.length .Integer = none := by
    unfold check_type
    rw [hg]
    rw [if_pos (by decide)]
  rw [hct]
  have hdrop : (pre ++ (INT :: intToAscii i ++ [END]) ++ post).drop (pre.length + 2)
      = ds ++ END :: post := by
    rw [drop_append_mid pre _ post 2 (by rw [hmidlen]; omega), hmid]
    simp
  have hdsdig : ∀ c ∈ ds, isDigit c = true := by
    intro c hc
    apply intToAscii_tail_digits i
    rw [hD]
    simpa using hc
  have hscan : scanIntegerEnd ((pre ++ (INT :: intToAscii i ++ [END]) ++ post).drop
      (pre.length + 2)) = .ok ds.length := by
    rw [hdrop]
    exact scanIntegerEnd_append ds post hdsdig
  rw [hscan]
  simp only []
  have hslice : sliceL (pre ++ (INT :: intToAscii i ++ [END]) ++ post)
      (pre.length + 1) (pre.length + 2 + ds.length) = intToAscii i := by
    rw [show pre.length + 2 + ds.length = pre.length + (ds.length + 2) by omega]
    rw [slice_append_mid pre _ post 1 (ds.length + 2) (by rw [hmidlen]; omega)]
    unfold sliceL
    rw [hmid]
    rw [show ds.length + 2 - 1 = ds.length + 1 by omega]
    rw [List.drop_one]
    simp only [List.tail_cons]
    rw [show (ds.length + 1) = (d0 :: ds).length by simp]
    rw [show d0 :: (ds ++ [END]) = (d0 :: ds) ++ [END] by simp]
    rw [List.take_left]
    rw [hD]
  rw [hslice]
  rw [if_neg (intToAscii_no_leading_zero i)]
  rw [parse_i64_intToAscii i h1 h2]
  have heq : pre.length + 2 + ds.length + 1 = pre.length + ((intToAscii i).length + 2) := by
    rw [hD]
    simp
    omega
  rw [heq]

/-- parse_bytes on the serialized form of a byte string embedded in a larger
buffer shorter than `usize::MAX`: it succeeds with the raw bytes and stops
one past them. -/
theorem parse_bytes_encode (pre post s : List Nat)
    (htotal : (pre ++ (natToDigits s.length ++ 58 :: s) ++ post).length < USIZE) :
    parse_bytes (pre ++ (natToDigits s.length ++ 58 :: s) ++ post) pre.length
      = .ok s (pre.length + ((natToDigits s.length).length + 1 + s.length)) := by
  have hmidlen : (natToDigits s.length ++ 58 :: s).length
      = (natToDigits s.length).length + 1 + s.length := by
    simp
    omega
  have hlen : (pre ++ (natToDigits s.length ++ 58 :: s) ++ post).length
      = pre.length + ((natToDigits s.length).length + 1 + s.length) + post.length := by
    rw [length_append3, hmidlen]
  unfold parse_bytes
  rw [if_neg (by omega)]
  have hdrop : (pre ++ (natToDigits s.length ++ 58 :: s) ++ post).drop pre.length
      = natToDigits s.length ++ 58 :: (s ++ post) := by
    have := drop_append_mid pre (natToDigits s.length ++ 58 :: s) post 0 (by omega)
    rw [Nat.add_zero] at this
    rw [this]
    simp
  have hfind : findByte 58 ((pre ++ (natToDigits s.length ++ 58 :: s) ++ post).drop pre.length)
      = some (natToDigits s.length).length := by
    rw [hdrop]
    exact findByte_append_digits _ _ (natToDigits_digits s.length)
  rw [hfind]
  simp only []
  have hslice1 : sliceL (pre ++ (natToDigits s.length ++ 58 :: s) ++ post)
      pre.length (pre.length + (natToDigits s.length).length) = natToDigits s.length := by
    have := slice_append_mid pre (natToDigits s.length ++ 58 :: s) post 0
      (natToDigits s.length).length (by rw [hmidlen]; omega)
    rw [Nat.add_zero] at this
    rw [this]
    unfold sliceL
    rw [List.drop_zero, Nat.sub_zero, List.take_left]
  rw [hslice1]
  rw [firstNonDigit_none _ (natToDigits_digits s.length)]
  have hpd : parseDigits (natToDigits s.length) = some s.length := parseDigits_natToDigits _
  rw [hpd]
  simp only []
  rw [if_neg (by omega)]
  rw [if_neg (by omega)]
  rw [if_neg (by omega)]
  have hslice2 : sliceL (pre ++ (natToDigits s.length ++ 58 :: s) ++ post)
      (pre.length + (natToDigits s.length).length + 1)
      (pre.length + (natToDigits s.length).length + 1 + s.length) = s := by
    rw [show pre.length + (natToDigits s.length).length + 1
        = pre.length + ((natToDigits s.length).length + 1) by omega]
    rw [show pre.length + ((natToDigits s.length).length + 1) + s.length
        = pre.length + ((natToDigits s.length).length + 1 + s.length) by omega]
    rw [slice_append_mid pre _ post ((natToDigits s.length).length + 1)
      ((natToDigits s.length).length + 1 + s.length) (by rw [hmidlen])]
    unfold sliceL
    rw [show (natToDigits s.length).length + 1 + s.length
        - ((natToDigits s.length).length + 1) = s.length by omega]
    rw [show natToDigits s.length ++ 58 :: s
        = (natToDigits s.length ++ [58]) ++ s by simp]
    rw [show (natToDigits s.length).length + 1 = (natToDigits s.length ++ [58]).length by simp]
    rw [List.drop_left]
    exact List.take_length s
  rw [hslice2]
  have : pre.length + (natToDigits s.length).length + 1 + s.length
      = pre.length + ((natToDigits s.length).length + 1 + s.length) := by omega
  rw [this]

/-! # Encodings: head bytes and the sorted-dict normal form -/

theorem natToDigits_head_digit (n : Nat) :
    isDigit ((natToDigits n).getD 0 0) = true := by
  cases hd : natToDigits n with
  | nil => exact absurd hd (natToDigits_ne_nil n)
  | cons c rest =>
    rw [List.getD_cons_zero]
    apply natToDigits_digits n
    rw [hd]
    simp

theorem isDigit_ne_tags {b : Nat} (h : isDigit b = true) :
    b ≠ INT ∧ b ≠ LIST ∧ b ≠ DICT ∧ b ≠ END := by
  simp [isDigit] at h
  unfold INT LIST DICT END
  omega

theorem to_bencode_ne_nil : ∀ v : Bencode, to_bencode v ≠ []
  | .Integer i => by simp [to_bencode]
  | .Bytes s => by
    simp only [to_bencode]
    intro h
    exact natToDigits_ne_nil s.length (by simpa using List.append_eq_nil.mp h |>.1)
  | .List xs => by simp [to_bencode]
  | .Dict kvs => by simp [to_bencode, BencodeMapSerializer.finish]

theorem to_bencode_head_ne_END : ∀ v : Bencode, (to_bencode v).getD 0 0 ≠ END
  | .Integer i => by simp [to_bencode, INT, END]
  | .Bytes s => by
    simp only [to_bencode]
    rw [getD_append_of_ne_nil (natToDigits_ne_nil s.length)]
    have := natToDigits_head_digit s.length
    exact (isDigit_ne_tags this).2.2.2
  | .List xs => by simp [to_bencode, LIST, END]
  | .Dict kvs => by simp [to_bencode, BencodeMapSerializer.finish, DICT, END]

theorem bytesLt_trans {a b c : List Nat} (h1 : bytesLt a b = true)
    (h2 : bytesLt b c = true) : bytesLt a c = true := by
  have hle := bytesLe_trans a b c (bytesLt_le a b h1) (bytesLt_le b c h2)
  apply bytesLt_of_le_ne a c hle
  intro hac
  subst hac
  exact bytesLt_ne a b h1 (bytesLe_antisymm a b (bytesLt_le a b h1) (bytesLt_le b a h2))

/-- The adjacent-pair check `keysAscB` gives full pairwise strict ordering. -/
theorem keysAscB_pairwise : ∀ kvs : List (List Nat × Bencode),
    keysAscB kvs = true → kvs.Pairwise (fun a b => bytesLt a.1 b.1 = true)
  | [] => fun _ => List.Pairwise.nil
  | [kv] => fun _ => by simp
  | (k1, v1) :: (k2, v2) :: rest => by
    intro h
    unfold keysAscB at h
    rw [Bool.and_eq_true] at h
    have htail := keysAscB_pairwise ((k2, v2) :: rest) h.2
    refine List.Pairwise.cons ?_ htail
    intro b hb
    rcases List.mem_cons.mp hb with rfl | hb2
    · exact h.1
    · have h2b := (List.pairwise_cons.mp htail).1 b hb2
      exact bytesLt_trans h.1 h2b

/-- Entry-by-entry byte form of a dictionary body. -/
def encodeEntriesBytes : List (List Nat × Bencode) → List Nat
  | [] => []
  | (k, v) :: rest =>
    (natToDigits k.length ++ 58 :: k) ++ to_bencode v ++ encodeEntriesBytes rest

theorem encodeEntries_eq_map : ∀ kvs : List (List Nat × Bencode),
    encodeEntries kvs = kvs.map fun kv => (serializeKey kv.1, to_bencode kv.2)
  | [] => rfl
  | (k, v) :: rest => by
    simp only [encodeEntries, List.map_cons]
    rw [encodeEntries_eq_map rest]

theorem flatten_entries_eq : ∀ kvs : List (List Nat × Bencode),
    ((encodeEntries kvs).map fun kv => kv.1.1 ++ kv.1.2 ++ kv.2).flatten
      = encodeEntriesBytes kvs
  | [] => rfl
  | (k, v) :: rest => by
    simp only [encodeEntries, List.map_cons, List.flatten_cons, serializeKey,
      encodeEntriesBytes]
    rw [flatten_entries_eq rest]
    simp

/-- On a strictly key-sorted dictionary the serializer's sort is the
identity, so the encoding is `d`, the entries in order, `e`. -/
theorem to_bencode_dict_sorted (kvs : List (List Nat × Bencode))
    (h : keysAscB kvs = true) :
    to_bencode (.Dict kvs) = DICT :: encodeEntriesBytes kvs ++ [END] := by
  have hpw := keysAscB_pairwise kvs h
  have hsorted : List.Sorted keyLe (encodeEntries kvs) := by
    rw [encodeEntries_eq_map]
    rw [List.Sorted, List.pairwise_map]
    refine hpw.imp ?_
    intro a b hab
    exact bytesLt_le a.1 b.1 hab
  show BencodeMapSerializer.finish (encodeEntries kvs) = _
  unfold BencodeMapSerializer.finish
  simp only []
  rw [List.Sorted.insertionSort_eq hsorted]
  rw [flatten_entries_eq]

/-! # Round trip: the serde decoder on the serializer's output -/

/-- Round-trip property of a single value, at any cursor position (buffer
`pre ++ encoding ++ post`) and any sufficient recursion depth. -/
def RoundTrips (v : Bencode) : Prop :=
  ∀ (fuel : Nat) (pre post : List Nat), wfB v = true →
    (pre ++ to_bencode v ++ post).length < USIZE →
    3 * ((to_bencode v).length + post.length) + 2 ≤ fuel →
    deserialize_anyF fuel (pre ++ to_bencode v ++ post) pre.length
      = .ok v (pre.length + (to_bencode v).length)

/-- The SeqAccess element loop consumes the concatenated element encodings
and the closing `e`, returning the elements in order. -/
theorem seq_elems_encode : ∀ (xs : List Bencode), (∀ x ∈ xs, RoundTrips x) →
    ∀ (fuel : Nat) (pre post : List Nat), wfListB xs = true →
    (pre ++ encodeElems xs ++ END :: post).length < USIZE →
    3 * ((encodeElems xs).length + 1 + post.length) + 3 ≤ fuel →
    seqAccessElemsF fuel (pre ++ encodeElems xs ++ END :: post) pre.length
      = .ok xs (pre.length + ((encodeElems xs).length + 1))
  | [], _ => by
    intro fuel pre post _ _ hfuel
    cases fuel with
    | zero => omega
    | succ f =>
      have hbuf : pre ++ encodeElems [] ++ END :: post = pre ++ [END] ++ post := by
        simp [encodeElems]
      rw [hbuf]
      unfold seqAccessElemsF
      have hget : (pre ++ [END] ++ post)[pre.length]? = some END := by
        have h0 := get_append_mid pre [END] post 0 (by simp)
        rw [Nat.add_zero] at h0
        rw [h0]
        rfl
      rw [hget, if_pos rfl]
      show _ = PResult.ok ([] : List Bencode) (pre.length + ((encodeElems []).length + 1))
      simp [encodeElems]
  | x :: xs, hP => by
    intro fuel pre post hwf htotal hfuel
    have hwf2 : wfB x = true ∧ wfListB xs = true := by simpa [wfListB] using hwf
    obtain ⟨b, r, hx⟩ : ∃ b r, to_bencode x = b :: r := by
      cases h : to_bencode x with
      | nil => exact absurd h (to_bencode_ne_nil x)
      | cons a c => exact ⟨a, c, rfl⟩
    have hbne : b ≠ END := by
      have h0 := to_bencode_head_ne_END x
      rw [hx] at h0
      simpa using h0
    have hjoin : encodeElems (x :: xs) = to_bencode x ++ encodeElems xs := rfl
    have hxlen : 1 ≤ (to_bencode x).length := by rw [hx]; simp
    have hbuf : pre ++ encodeElems (x :: xs) ++ END :: post
        = pre ++ to_bencode x ++ (encodeElems xs ++ END :: post) := by
      rw [hjoin]
      simp
    cases fuel with
    | zero => omega
    | succ f =>
      unfold seqAccessElemsF
      have hget : (pre ++ encodeElems (x :: xs) ++ END :: post)[pre.length]? = some b := by
        have h0 := get_append_mid pre (encodeElems (x :: xs)) (END :: post) 0
          (by rw [hjoin, List.length_append, hx]; simp)
        rw [Nat.add_zero] at h0
        rw [h0, hjoin, hx]
        simp
      rw [hget, if_neg (by simp [hbne])]
      have hone : deserialize_anyF f (pre ++ encodeElems (x :: xs) ++ END :: post) pre.length
          = .ok x (pre.length + (to_bencode x).length) := by
        rw [hbuf]
        refine hP x (by simp) f pre (encodeElems xs ++ END :: post) hwf2.1 ?_ ?_
        · rw [← hbuf]
          exact htotal
        · rw [hjoin] at hfuel
          simp only [List.length_append, List.length_cons] at hfuel ⊢
          omega
      rw [hone]
      dsimp only
      have heq : (pre ++ to_bencode x) ++ encodeElems xs ++ END :: post
          = pre ++ encodeElems (x :: xs) ++ END :: post := by
        rw [hjoin]
        simp
      have hrec : seqAccessElemsF f (pre ++ encodeElems (x :: xs) ++ END :: post)
          (pre.length + (to_bencode x).length)
          = .ok xs (pre.length + (to_bencode x).length + ((encodeElems xs).length + 1)) := by
        have h0 := seq_elems_encode xs (fun y hy => hP y (by simp [hy])) f
          (pre ++ to_bencode x) post hwf2.2 (by rw [heq]; exact htotal)
          (by rw [hjoin] at hfuel
              simp only [List.length_append, List.length_cons] at hfuel ⊢
              omega)
        rw [heq, List.length_append] at h0
        exact h0
      rw [hrec]
      show PResult.mapVal _ _ = _
      simp only [PResult.mapVal]
      congr 1
      rw [hjoin]
      simp only [List.length_append]
      omega

/-- The MapAccess entry loop consumes the concatenated
key-encoding/value-encoding pairs and the closing `e`, returning the entries
in order. -/
theorem map_entries_encode : ∀ (kvs : List (List Nat × Bencode)),
    (∀ kv ∈ kvs, RoundTrips kv.2) →
    ∀ (fuel : Nat) (pre post : List Nat), wfDictB kvs = true →
    (pre ++ encodeEntriesBytes kvs ++ END :: post).length < USIZE →
    3 * ((encodeEntriesBytes kvs).length + 1 + post.length) + 3 ≤ fuel →
    mapAccessEntriesF fuel (pre ++ encodeEntriesBytes kvs ++ END :: post) pre.length
      = .ok kvs (pre.length + ((encodeEntriesBytes kvs).length + 1))
  | [], _ => by
    intro fuel pre post _ _ hfuel
    cases fuel with
    | zero => omega
    | succ f =>
      have hbuf : pre ++ encodeEntriesBytes [] ++ END :: post = pre ++ [END] ++ post := by
        simp [encodeEntriesBytes]
      rw [hbuf]
      unfold mapAccessEntriesF
      have hget : (pre ++ [END] ++ post)[pre.length]? = some END := by
        have h0 := get_append_mid pre [END] post 0 (by simp)
        rw [Nat.add_zero] at h0
        rw [h0]
        rfl
      rw [hget, if_pos rfl]
      show _ = PResult.ok ([] : List (List Nat × Bencode))
        (pre.length + ((encodeEntriesBytes []).length + 1))
      simp [encodeEntriesBytes]
  | (k, v) :: rest, hP => by
    intro fuel pre post hwf htotal hfuel
    have hwf2 : wfB v = true ∧ wfDictB rest = true := by simpa [wfDictB] using hwf
    obtain ⟨d0, ds, hk⟩ : ∃ d0 ds, natToDigits k.length = d0 :: ds := by
      cases h : natToDigits k.length with
      | nil => exact absurd h (natToDigits_ne_nil k.length)
      | cons a c => exact ⟨a, c, rfl⟩
    have hd0 : isDigit d0 = true := by
      have h0 := natToDigits_head_digit k.length
      rw [hk, List.getD_cons_zero] at h0
      exact h0
    have hd0ne : d0 ≠ END := (isDigit_ne_tags hd0).2.2.2
    have hjoin : encodeEntriesBytes ((k, v) :: rest)
        = (natToDigits k.length ++ 58 :: k) ++ (to_bencode v ++ encodeEntriesBytes rest) := by
      simp [encodeEntriesBytes]
    have heblen : 1 ≤ (natToDigits k.length ++ 58 :: k).length := by simp; omega
    cases fuel with
    | zero => omega
    | succ f =>
      unfold mapAccessEntriesF
      have hget : (pre ++ encodeEntriesBytes ((k, v) :: rest) ++ END :: post)[pre.length]?
          = some d0 := by
        have h0 := get_append_mid pre (encodeEntriesBytes ((k, v) :: rest)) (END :: post) 0
          (by rw [hjoin]; simp)
        rw [Nat.add_zero] at h0
        rw [h0, hjoin, hk]
        simp
      rw [hget, if_neg (by simp [hd0ne])]
      dsimp only
      rw [if_pos hd0]
      have hbuf1 : pre ++ encodeEntriesBytes ((k, v) :: rest) ++ END :: post
          = pre ++ (natToDigits k.length ++ 58 :: k)
            ++ (to_bencode v ++ (encodeEntriesBytes rest ++ END :: post)) := by
        rw [hjoin]
        simp
      have hkey : parse_bytes (pre ++ encodeEntriesBytes ((k, v) :: rest) ++ END :: post)
          pre.length
          = .ok k (pre.length + ((natToDigits k.length).length + 1 + k.length)) := by
        rw [hbuf1]
        exact parse_bytes_encode pre (to_bencode v ++ (encodeEntriesBytes rest ++ END :: post))
          k (by rw [← hbuf1]; exact htotal)
      rw [hkey]
      dsimp only
      have hkeylen : (natToDigits k.length ++ 58 :: k).length
          = (natToDigits k.length).length + 1 + k.length := by
        simp
        omega
      have hbuf2 : (pre ++ (natToDigits k.length ++ 58 :: k)) ++ to_bencode v
          ++ (encodeEntriesBytes rest ++ END :: post)
          = pre ++ encodeEntriesBytes ((k, v) :: rest) ++ END :: post := by
        rw [hjoin]
        simp
      have hval : deserialize_anyF f (pre ++ encodeEntriesBytes ((k, v) :: rest) ++ END :: post)
          (pre.length + ((natToDigits k.length).length + 1 + k.length))
          = .ok v (pre.length + ((natToDigits k.length).length + 1 + k.length)
              + (to_bencode v).length) := by
        have h0 := hP (k, v) (by simp) f (pre ++ (natToDigits k.length ++ 58 :: k))
          (encodeEntriesBytes rest ++ END :: post) hwf2.1
          (by rw [hbuf2]; exact htotal)
          (by rw [hjoin] at hfuel
              simp only [List.length_append, List.length_cons] at hfuel ⊢
              omega)
        rw [hbuf2, List.length_append, hkeylen] at h0
        exact h0
      rw [hval]
      dsimp only
      have hbuf3 : (pre ++ (natToDigits k.length ++ 58 :: k) ++ to_bencode v)
          ++ encodeEntriesBytes rest ++ END :: post
          = pre ++ encodeEntriesBytes ((k, v) :: rest) ++ END :: post := by
        rw [hjoin]
        simp
      have hrec : mapAccessEntriesF f (pre ++ encodeEntriesBytes ((k, v) :: rest) ++ END :: post)
          (pre.length + ((natToDigits k.length).length + 1 + k.length) + (to_bencode v).length)
          = .ok rest (pre.length + ((natToDigits k.length).length + 1 + k.length)
              + (to_bencode v).length + ((encodeEntriesBytes rest).length + 1)) := by
        have h0 := map_entries_encode rest (fun kv hkv => hP kv (by simp [hkv])) f
          (pre ++ (natToDigits k.length ++ 58 :: k) ++ to_bencode v) post hwf2.2
          (by rw [hbuf3]; exact htotal)
          (by rw [hjoin] at hfuel
              simp only [List.length_append, List.length_cons] at hfuel ⊢
              omega)
        rw [hbuf3] at h0
        rw [show (pre ++ (natToDigits k.length ++ 58 :: k) ++ to_bencode v).length
            = pre.length + ((natToDigits k.length).length + 1 + k.length)
              + (to_bencode v).length by simp; omega] at h0
        exact h0
      rw [hrec]
      show PResult.mapVal _ _ = _
      simp only [PResult.mapVal]
      congr 1
      rw [hjoin]
      simp only [List.length_append, List.length_cons]
      omega

/-- Every well-formed value round-trips through the serializer and the serde
decoder (induction on the size of the value). -/
theorem decode_encode_sized : ∀ (n : Nat) (v : Bencode), sizeOf v ≤ n → RoundTrips v := by
  intro n
  induction n with
  | zero =>
    intro v hv
    exfalso
    cases v <;> simp at hv <;> omega
  | succ n ih =>
    intro v hv fuel pre post hwf htotal hfuel
    match v with
    | .Integer i =>
      have hrange : -(2 ^ 63 : Int) ≤ i ∧ i ≤ 2 ^ 63 - 1 := by
        simpa [wfB] using hwf
      cases fuel with
      | zero => omega
      | succ f =>
        unfold deserialize_anyF
        have henc : to_bencode (.Integer i) = INT :: intToAscii i ++ [END] := rfl
        have hget : (pre ++ to_bencode (.Integer i) ++ post)[pre.length]? = some INT := by
          have h0 := get_append_mid pre (to_bencode (.Integer i)) post 0 (by rw [henc]; simp)
          rw [Nat.add_zero] at h0
          rw [h0, henc]
          simp
        rw [hget]
        dsimp only
        rw [if_pos rfl]
        rw [henc, parse_integer_encode pre post i hrange.1 hrange.2]
        simp only [PResult.mapVal]
        congr 1
        simp <;> omega
    | .Bytes s =>
      obtain ⟨d0, ds, hk⟩ : ∃ d0 ds, natToDigits s.length = d0 :: ds := by
        cases h : natToDigits s.length with
        | nil => exact absurd h (natToDigits_ne_nil s.length)
        | cons a c => exact ⟨a, c, rfl⟩
      have hd0 : isDigit d0 = true := by
        have h0 := natToDigits_head_digit s.length
        rw [hk, List.getD_cons_zero] at h0
        exact h0
      have hd0ne := isDigit_ne_tags hd0
      cases fuel with
      | zero => omega
      | succ f =>
        unfold deserialize_anyF
        have henc : to_bencode (.Bytes s) = natToDigits s.length ++ 58 :: s := rfl
        have hget : (pre ++ to_bencode (.Bytes s) ++ post)[pre.length]? = some d0 := by
          have h0 := get_append_mid pre (to_bencode (.Bytes s)) post 0
            (by rw [henc]; simp <;> omega)
          rw [Nat.add_zero] at h0
          rw [h0, henc, hk]
          simp
        rw [hget]
        dsimp only
        rw [if_neg hd0ne.1, if_neg hd0ne.2.1, if_neg hd0ne.2.2.1, if_pos hd0]
        rw [henc, parse_bytes_encode pre post s (by rw [← henc]; exact htotal)]
        simp only [PResult.mapVal]
        congr 1
        simp
        omega
    | .List xs =>
      have hwfl : wfListB xs = true := by simpa [wfB] using hwf
      have henc : to_bencode (.List xs) = LIST :: encodeElems xs ++ [END] := rfl
      have henclen : (to_bencode (.List xs)).length = (encodeElems xs).length + 2 := by
        rw [henc]
        simp
      cases fuel with
      | zero => omega
      | succ f =>
        unfold deserialize_anyF
        have hget : (pre ++ to_bencode (.List xs) ++ post)[pre.length]? = some LIST := by
          have h0 := get_append_mid pre (to_bencode (.List xs)) post 0 (by rw [henclen]; omega)
          rw [Nat.add_zero] at h0
          rw [h0, henc]
          simp
        rw [hget]
        dsimp only
        rw [if_neg (by decide), if_pos rfl]
        cases f with
        | zero => omega
        | succ f2 =>
          unfold deserialize_seqF
          rw [hget]
          dsimp only
          rw [if_neg (by decide)]
          have hclen : (pre ++ to_bencode (.List xs) ++ post).length
              = pre.length + ((encodeElems xs).length + 2) + post.length := by
            rw [length_append3, henclen]
          unfold check_for_container_type
          rw [if_neg (by omega)]
          have hgd : (pre ++ to_bencode (.List xs) ++ post).getD pre.length 0 = LIST := by
            rw [List.getD_eq_getElem?_getD, hget]
            rfl
          have hct : check_type (pre ++ to_bencode (.List xs) ++ post) pre.length .List
              = none := by
            unfold check_type
            rw [hgd]
            rw [if_pos (by decide)]
          rw [hct]
          have hbuf : pre ++ to_bencode (.List xs) ++ post
              = (pre ++ [LIST]) ++ encodeElems xs ++ END :: post := by
            rw [henc]
            simp
          have helems : seqAccessElemsF f2 (pre ++ to_bencode (.List xs) ++ post)
              (pre.length + 1)
              = .ok xs (pre.length + 1 + ((encodeElems xs).length + 1)) := by
            have hPx : ∀ x ∈ xs, RoundTrips x := by
              intro x hx
              apply ih x
              have h1 := List.sizeOf_lt_of_mem hx
              have h2 : sizeOf (Bencode.List xs) = 1 + sizeOf xs := by simp
              omega
            have h0 := seq_elems_encode xs hPx f2 (pre ++ [LIST]) post hwfl
              (by rw [← hbuf]; exact htotal)
              (by rw [henclen] at hfuel; omega)
            rw [← hbuf] at h0
            rw [show (pre ++ [LIST]).length = pre.length + 1 by simp] at h0
            exact h0
          rw [helems]
          simp only [PResult.mapVal]
          congr 1
          rw [henclen]
          omega
    | .Dict kvs =>
      have hwfd : keysAscB kvs = true ∧ wfDictB kvs = true := by simpa [wfB] using hwf
      have henc : to_bencode (.Dict kvs) = DICT :: encodeEntriesBytes kvs ++ [END] :=
        to_bencode_dict_sorted kvs hwfd.1
      have henclen : (to_bencode (.Dict kvs)).length = (encodeEntriesBytes kvs).length + 2 := by
        rw [henc]
        simp
      cases fuel with
      | zero => omega
      | succ f =>
        unfold deserialize_anyF
        have hget : (pre ++ to_bencode (.Dict kvs) ++ post)[pre.length]? = some DICT := by
          have h0 := get_append_mid pre (to_bencode (.Dict kvs)) post 0 (by rw [henclen]; omega)
          rw [Nat.add_zero] at h0
          rw [h0, henc]
          simp
        rw [hget]
        dsimp only
        rw [if_neg (by decide), if_neg (by decide), if_pos rfl]
        cases f with
        | zero => omega
        | succ f2 =>
          unfold deserialize_mapF
          have hclen : (pre ++ to_bencode (.Dict kvs) ++ post).length
              = pre.length + ((encodeEntriesBytes kvs).length + 2) + post.length := by
            rw [length_append3, henclen]
          unfold check_for_container_type
          rw [if_neg (by omega)]
          have hgd : (pre ++ to_bencode (.Dict kvs) ++ post).getD pre.length 0 = DICT := by
            rw [List.getD_eq_getElem?_getD, hget]
            rfl
          have hct : check_type (pre ++ to_bencode (.Dict kvs) ++ post) pre.length .Dict
              = none := by
            unfold check_type
            rw [hgd]
            rw [if_pos (by decide)]
          rw [hct]
          have hbuf : pre ++ to_bencode (.Dict kvs) ++ post
              = (pre ++ [DICT]) ++ encodeEntriesBytes kvs ++ END :: post := by
            rw [henc]
            simp
          have hentries : mapAccessEntriesF f2 (pre ++ to_bencode (.Dict kvs) ++ post)
              (pre.length + 1)
              = .ok kvs (pre.length + 1 + ((encodeEntriesBytes kvs).length + 1)) := by
            have hPkv : ∀ kv ∈ kvs, RoundTrips kv.2 := by
              intro kv hkv
              apply ih kv.2
              have h1 := List.sizeOf_lt_of_mem hkv
              have h2 : sizeOf (Bencode.Dict kvs) = 1 + sizeOf kvs := by simp
              have h3 : sizeOf kv = 1 + sizeOf kv.1 + sizeOf kv.2 := by
                cases kv
                simp
              omega
            have h0 := map_entries_encode kvs hPkv f2 (pre ++ [DICT]) post hwfd.2
              (by rw [← hbuf]; exact htotal)
              (by rw [henclen] at hfuel; omega)
            rw [← hbuf] at h0
            rw [show (pre ++ [DICT]).length = pre.length + 1 by simp] at h0
            exact h0
          rw [hentries]
          simp only [PResult.mapVal]
          congr 1
          rw [henclen]
          omega

/-! # Skip on the serializer's output -/

/-- skip_value fully consumes a single value's encoding, stopping exactly
past it (including the closing `e` of a container). -/
def SkipConsumes (v : Bencode) : Prop :=
  ∀ (fuel : Nat) (pre post : List Nat), wfB v = true →
    (pre ++ to_bencode v ++ post).length < USIZE →
    2 * ((to_bencode v).length + post.length) + 2 ≤ fuel →
    skip_valueF fuel (pre ++ to_bencode v ++ post) pre.length
      = .ok () (pre.length + (to_bencode v).length)

/-- skip_value on a byte-string token (one fuel layer, then parse_bytes). -/
theorem skip_bytes_encode (fuel : Nat) (pre post s : List Nat) (hf : 1 ≤ fuel)
    (htotal : (pre ++ (natToDigits s.length ++ 58 :: s) ++ post).length < USIZE) :
    skip_valueF fuel (pre ++ (natToDigits s.length ++ 58 :: s) ++ post) pre.length
      = .ok () (pre.length + ((natToDigits s.length).length + 1 + s.length)) := by
  obtain ⟨d0, ds, hk⟩ : ∃ d0 ds, natToDigits s.length = d0 :: ds := by
    cases h : natToDigits s.length with
    | nil => exact absurd h (natToDigits_ne_nil s.length)
    | cons a c => exact ⟨a, c, rfl⟩
  have hd0 : isDigit d0 = true := by
    have h0 := natToDigits_head_digit s.length
    rw [hk, List.getD_cons_zero] at h0
    exact h0
  have hd0ne := isDigit_ne_tags hd0
  cases fuel with
  | zero => omega
  | succ f =>
    unfold skip_valueF
    have hget : (pre ++ (natToDigits s.length ++ 58 :: s) ++ post)[pre.length]? = some d0 := by
      have h0 := get_append_mid pre (natToDigits s.length ++ 58 :: s) post 0
        (by simp <;> omega)
      rw [Nat.add_zero] at h0
      rw [h0, hk]
      simp
    rw [hget]
    dsimp only
    rw [if_neg hd0ne.1, if_neg hd0ne.2.1, if_neg hd0ne.2.2.1, if_pos hd0]
    rw [parse_bytes_encode pre post s htotal]
    rfl

/-- The list arm of skip_value consumes the element encodings and the
closing `e`. -/
theorem skip_list_items_encode : ∀ (xs : List Bencode), (∀ x ∈ xs, SkipConsumes x) →
    ∀ (fuel : Nat) (pre post : List Nat), wfListB xs = true →
    (pre ++ encodeElems xs ++ END :: post).length < USIZE →
    2 * ((encodeElems xs).length + 1 + post.length) + 3 ≤ fuel →
    skip_listItemsF fuel (pre ++ encodeElems xs ++ END :: post) pre.length
      = .ok () (pre.length + ((encodeElems xs).length + 1))
  | [], _ => by
    intro fuel pre post _ _ hfuel
    cases fuel with
    | zero => omega
    | succ f =>
      have hbuf : pre ++ encodeElems [] ++ END :: post = pre ++ [END] ++ post := by
        simp [encodeElems]
      rw [hbuf]
      unfold skip_listItemsF
      have hlt : pre.length < (pre ++ [END] ++ post).length := by
        rw [length_append3]
        simp only [List.length_cons, List.length_nil]
        omega
      have hgd : (pre ++ [END] ++ post).getD pre.length 0 = END := by
        have h0 := getD_append_mid pre [END] post 0 (by simp)
        rw [Nat.add_zero] at h0
        rw [h0]
        rfl
      rw [if_neg (fun hcond => hcond.2 hgd)]
      rw [if_pos hlt]
      show _ = PResult.ok () (pre.length + ((encodeElems []).length + 1))
      simp [encodeElems]
  | x :: xs, hP => by
    intro fuel pre post hwf htotal hfuel
    have hwf2 : wfB x = true ∧ wfListB xs = true := by simpa [wfListB] using hwf
    obtain ⟨b, r, hx⟩ : ∃ b r, to_bencode x = b :: r := by
      cases h : to_bencode x with
      | nil => exact absurd h (to_bencode_ne_nil x)
      | cons a c => exact ⟨a, c, rfl⟩
    have hbne : b ≠ END := by
      have h0 := to_bencode_head_ne_END x
      rw [hx] at h0
      simpa using h0
    have hjoin : encodeElems (x :: xs) = to_bencode x ++ encodeElems xs := rfl
    have hxlen : 1 ≤ (to_bencode x).length := by rw [hx]; simp
    have hbuf : pre ++ encodeElems (x :: xs) ++ END :: post
        = pre ++ to_bencode x ++ (encodeElems xs ++ END :: post) := by
      rw [hjoin]
      simp
    cases fuel with
    | zero => omega
    | succ f =>
      unfold skip_listItemsF
      have hlt : pre.length < (pre ++ encodeElems (x :: xs) ++ END :: post).length := by
        rw [length_append3]
        simp only [List.length_cons]
        omega
      have hgd : (pre ++ encodeElems (x :: xs) ++ END :: post).getD pre.length 0 = b := by
        have h0 := getD_append_mid pre (encodeElems (x :: xs)) (END :: post) 0
          (by rw [hjoin, List.length_append, hx]; simp)
        rw [Nat.add_zero] at h0
        rw [h0, hjoin, hx]
        simp
      rw [if_pos ⟨hlt, by rw [hgd]; exact hbne⟩]
      have hone : skip_valueF f (pre ++ encodeElems (x :: xs) ++ END :: post) pre.length
          = .ok () (pre.length + (to_bencode x).length) := by
        rw [hbuf]
        refine hP x (by simp) f pre (encodeElems xs ++ END :: post) hwf2.1 ?_ ?_
        · rw [← hbuf]
          exact htotal
        · rw [hjoin] at hfuel
          simp only [List.length_append, List.length_cons] at hfuel ⊢
          omega
      rw [hone]
      dsimp only
      have heq : (pre ++ to_bencode x) ++ encodeElems xs ++ END :: post
          = pre ++ encodeElems (x :: xs) ++ END :: post := by
        rw [hjoin]
        simp
      have hrec := skip_list_items_encode xs (fun y hy => hP y (by simp [hy])) f
        (pre ++ to_bencode x) post hwf2.2 (by rw [heq]; exact htotal)
        (by rw [hjoin] at hfuel
            simp only [List.length_append, List.length_cons] at hfuel ⊢
            omega)
      rw [heq, List.length_append] at hrec
      rw [hrec]
      congr 1
      rw [hjoin]
      simp only [List.length_append]
      omega

/-- The dict arm of skip_value consumes key/value encodings and the closing
`e`. -/
theorem skip_dict_items_encode : ∀ (kvs : List (List Nat × Bencode)),
    (∀ kv ∈ kvs, SkipConsumes kv.2) →
    ∀ (fuel : Nat) (pre post : List Nat), wfDictB kvs = true →
    (pre ++ encodeEntriesBytes kvs ++ END :: post).length < USIZE →
    2 * ((encodeEntriesBytes kvs).length + 1 + post.length) + 3 ≤ fuel →
    skip_dictItemsF fuel (pre ++ encodeEntriesBytes kvs ++ END :: post) pre.length
      = .ok () (pre.length + ((encodeEntriesBytes kvs).length + 1))
  | [], _ => by
    intro fuel pre post _ _ hfuel
    cases fuel with
    | zero => omega
    | succ f =>
      have hbuf : pre ++ encodeEntriesBytes [] ++ END :: post = pre ++ [END] ++ post := by
        simp [encodeEntriesBytes]
      rw [hbuf]
      unfold skip_dictItemsF
      have hlt : pre.length < (pre ++ [END] ++ post).length := by
        rw [length_append3]
        simp only [List.length_cons, List.length_nil]
        omega
      have hgd : (pre ++ [END] ++ post).getD pre.length 0 = END := by
        have h0 := getD_append_mid pre [END] post 0 (by simp)
        rw [Nat.add_zero] at h0
        rw [h0]
        rfl
      rw [if_neg (fun hcond => hcond.2 hgd)]
      rw [if_pos hlt]
      show _ = PResult.ok () (pre.length + ((encodeEntriesBytes []).length + 1))
      simp [encodeEntriesBytes]
  | (k, v) :: rest, hP => by
    intro fuel pre post hwf htotal hfuel
    have hwf2 : wfB v = true ∧ wfDictB rest = true := by simpa [wfDictB] using hwf
    obtain ⟨d0, ds, hk⟩ : ∃ d0 ds, natToDigits k.length = d0 :: ds := by
      cases h : natToDigits k.length with
      | nil => exact absurd h (natToDigits_ne_nil k.length)
      | cons a c => exact ⟨a, c, rfl⟩
    have hd0 : isDigit d0 = true := by
      have h0 := natToDigits_head_digit k.length
      rw [hk, List.getD_cons_zero] at h0
      exact h0
    have hd0ne : d0 ≠ END := (isDigit_ne_tags hd0).2.2.2
    have hjoin : encodeEntriesBytes ((k, v) :: rest)
        = (natToDigits k.length ++ 58 :: k) ++ (to_bencode v ++ encodeEntriesBytes rest) := by
      simp [encodeEntriesBytes]
    cases fuel with
    | zero => omega
    | succ f =>
      unfold skip_dictItemsF
      have hlt : pre.length < (pre ++ encodeEntriesBytes ((k, v) :: rest) ++ END :: post).length := by
        rw [length_append3]
        simp only [List.length_cons]
        omega
      have hgd : (pre ++ encodeEntriesBytes ((k, v) :: rest) ++ END :: post).getD pre.length 0
          = d0 := by
        have h0 := getD_append_mid pre (encodeEntriesBytes ((k, v) :: rest)) (END :: post) 0
          (by rw [hjoin]; simp)
        rw [Nat.add_zero] at h0
        rw [h0, hjoin, hk]
        simp
      rw [if_pos ⟨hlt, by rw [hgd]; exact hd0ne⟩]
      have hbuf1 : pre ++ encodeEntriesBytes ((k, v) :: rest) ++ END :: post
          = pre ++ (natToDigits k.length ++ 58 :: k)
            ++ (to_bencode v ++ (encodeEntriesBytes rest ++ END :: post)) := by
        rw [hjoin]
        simp
      have hkey : skip_valueF f (pre ++ encodeEntriesBytes ((k, v) :: rest) ++ END :: post)
          pre.length
          = .ok () (pre.length + ((natToDigits k.length).length + 1 + k.length)) := by
        rw [hbuf1]
        refine skip_bytes_encode f pre
          (to_bencode v ++ (encodeEntriesBytes rest ++ END :: post)) k ?_ ?_
        · rw [hjoin] at hfuel
          simp only [List.length_append, List.length_cons] at hfuel
          omega
        · rw [← hbuf1]
          exact htotal
      rw [hkey]
      dsimp only
      have hkeylen : (natToDigits k.length ++ 58 :: k).length
          = (natToDigits k.length).length + 1 + k.length := by
        simp
        omega
      have hp1lt : pre.length + ((natToDigits k.length).length + 1 + k.length)
          < (pre ++ encodeEntriesBytes ((k, v) :: rest) ++ END :: post).length := by
        rw [length_append3, hjoin]
        have h1 : 1 ≤ (to_bencode v).length := by
          cases h : to_bencode v with
          | nil => exact absurd h (to_bencode_ne_nil v)
          | cons a c => simp
        simp only [List.length_append, List.length_cons]
        omega
      rw [if_pos hp1lt]
      have hbuf2 : (pre ++ (natToDigits k.length ++ 58 :: k)) ++ to_bencode v
          ++ (encodeEntriesBytes rest ++ END :: post)
          = pre ++ encodeEntriesBytes ((k, v) :: rest) ++ END :: post := by
        rw [hjoin]
        simp
      have hval : skip_valueF f (pre ++ encodeEntriesBytes ((k, v) :: rest) ++ END :: post)
          (pre.length + ((natToDigits k.length).length + 1 + k.length))
          = .ok () (pre.length + ((natToDigits k.length).length + 1 + k.length)
              + (to_bencode v).length) := by
        have h0 := hP (k, v) (by simp) f (pre ++ (natToDigits k.length ++ 58 :: k))
          (encodeEntriesBytes rest ++ END :: post) hwf2.1
          (by rw [hbuf2]; exact htotal)
          (by rw [hjoin] at hfuel
              simp only [List.length_append, List.length_cons] at hfuel ⊢
              omega)
        rw [hbuf2, List.length_append, hkeylen] at h0
        exact h0
      rw [hval]
      dsimp only
      have hbuf3 : (pre ++ (natToDigits k.length ++ 58 :: k) ++ to_bencode v)
          ++ encodeEntriesBytes rest ++ END :: post
          = pre ++ encodeEntriesBytes ((k, v) :: rest) ++ END :: post := by
        rw [hjoin]
        simp
      have hrec := skip_dict_items_encode rest (fun kv hkv => hP kv (by simp [hkv])) f
        (pre ++ (natToDigits k.length ++ 58 :: k) ++ to_bencode v) post hwf2.2
        (by rw [hbuf3]; exact htotal)
        (by rw [hjoin] at hfuel
            simp only [List.length_append, List.length_cons] at hfuel ⊢
            omega)
      rw [hbuf3] at hrec
      rw [show (pre ++ (natToDigits k.length ++ 58 :: k) ++ to_bencode v).length
          = pre.length + ((natToDigits k.length).length + 1 + k.length)
            + (to_bencode v).length by simp; omega] at hrec
      rw [hrec]
      congr 1
      rw [hjoin]
      simp only [List.length_append, List.length_cons]
      omega

/-- skip_value consumes exactly one well-formed encoded value (induction on
the size of the value). -/
theorem skip_encode_sized : ∀ (n : Nat) (v : Bencode), sizeOf v ≤ n → SkipConsumes v := by
  intro n
  induction n with
  | zero =>
    intro v hv
    exfalso
    cases v <;> simp at hv <;> omega
  | succ n ih =>
    intro v hv fuel pre post hwf htotal hfuel
    match v with
    | .Integer i =>
      have hrange : -(2 ^ 63 : Int) ≤ i ∧ i ≤ 2 ^ 63 - 1 := by
        simpa [wfB] using hwf
      cases fuel with
      | zero => omega
      | succ f =>
        unfold skip_valueF
        have henc : to_bencode (.Integer i) = INT :: intToAscii i ++ [END] := rfl
        have hget : (pre ++ to_bencode (.Integer i) ++ post)[pre.length]? = some INT := by
          have h0 := get_append_mid pre (to_bencode (.Integer i)) post 0 (by rw [henc]; simp)
          rw [Nat.add_zero] at h0
          rw [h0, henc]
          simp
        rw [hget]
        dsimp only
        rw [if_pos rfl]
        rw [henc, parse_integer_encode pre post i hrange.1 hrange.2]
        simp only [PResult.mapVal]
        congr 1
        simp <;> omega
    | .Bytes s =>
      have henc : to_bencode (.Bytes s) = natToDigits s.length ++ 58 :: s := rfl
      have h0 := skip_bytes_encode fuel pre post s (by omega) (by rw [← henc]; exact htotal)
      rw [← henc] at h0
      rw [h0]
      congr 1
      rw [henc]
      simp
      omega
    | .List xs =>
      have hwfl : wfListB xs = true := by simpa [wfB] using hwf
      have henc : to_bencode (.List xs) = LIST :: encodeElems xs ++ [END] := rfl
      have henclen : (to_bencode (.List xs)).length = (encodeElems xs).length + 2 := by
        rw [henc]
        simp
      cases fuel with
      | zero => omega
      | succ f =>
        unfold skip_valueF
        have hget : (pre ++ to_bencode (.List xs) ++ post)[pre.length]? = some LIST := by
          have h0 := get_append_mid pre (to_bencode (.List xs)) post 0 (by rw [henclen]; omega)
          rw [Nat.add_zero] at h0
          rw [h0, henc]
          simp
        rw [hget]
        dsimp only
        rw [if_neg (by decide), if_pos rfl]
        have hbuf : pre ++ to_bencode (.List xs) ++ post
            = (pre ++ [LIST]) ++ encodeElems xs ++ END :: post := by
          rw [henc]
          simp
        have hPx : ∀ x ∈ xs, SkipConsumes x := by
          intro x hx
          apply ih x
          have h1 := List.sizeOf_lt_of_mem hx
          have h2 : sizeOf (Bencode.List xs) = 1 + sizeOf xs := by simp
          omega
        have h0 := skip_list_items_encode xs hPx f (pre ++ [LIST]) post hwfl
          (by rw [← hbuf]; exact htotal)
          (by rw [henclen] at hfuel; omega)
        rw [← hbuf] at h0
        rw [show (pre ++ [LIST]).length = pre.length + 1 by simp] at h0
        rw [h0]
        congr 1
        rw [henclen]
        omega
    | .Dict kvs =>
      have hwfd : keysAscB kvs = true ∧ wfDictB kvs = true := by simpa [wfB] using hwf
      have henc : to_bencode (.Dict kvs) = DICT :: encodeEntriesBytes kvs ++ [END] :=
        to_bencode_dict_sorted kvs hwfd.1
      have henclen : (to_bencode (.Dict kvs)).length
          = (encodeEntriesBytes kvs).length + 2 := by
        rw [henc]
        simp
      cases fuel with
      | zero => omega
      | succ f =>
        unfold skip_valueF
        have hget : (pre ++ to_bencode (.Dict kvs) ++ post)[pre.length]? = some DICT := by
          have h0 := get_append_mid pre (to_bencode (.Dict kvs)) post 0 (by rw [henclen]; omega)
          rw [Nat.add_zero] at h0
          rw [h0, henc]
          simp
        rw [hget]
        dsimp only
        rw [if_neg (by decide), if_neg (by decide), if_pos rfl]
        have hbuf : pre ++ to_bencode (.Dict kvs) ++ post
            = (pre ++ [DICT]) ++ encodeEntriesBytes kvs ++ END :: post := by
          rw [henc]
          simp
        have hPkv : ∀ kv ∈ kvs, SkipConsumes kv.2 := by
          intro kv hkv
          apply ih kv.2
          have h1 := List.sizeOf_lt_of_mem hkv
          have h2 : sizeOf (Bencode.Dict kvs) = 1 + sizeOf kvs := by simp
          have h3 : sizeOf kv = 1 + sizeOf kv.1 + sizeOf kv.2 := by
            cases kv
            simp
          omega
        have h0 := skip_dict_items_encode kvs hPkv f (pre ++ [DICT]) post hwfd.2
          (by rw [← hbuf]; exact htotal)
          (by rw [henclen] at hfuel; omega)
        rw [← hbuf] at h0
        rw [show (pre ++ [DICT]).length = pre.length + 1 by simp] at h0
        rw [h0]
        congr 1
        rw [henclen]
        omega

theorem mapVal_outOfFuel_iff (f : α → β) (r : PResult α) :
    r.mapVal f = .outOfFuel ↔ r = .outOfFuel := by
  cases r <;> simp [PResult.mapVal]

theorem parse_integer_ne_outOfFuel (input : List Nat) (pos : Nat) :
    parse_integer input pos ≠ .outOfFuel := by
  unfold parse_integer
  split
  · simp
  · split
    · simp
    · split
      · simp
      · simp only []
        split
        · simp
        · split <;> simp

theorem parse_bytes_ne_outOfFuel (input : List Nat) (pos : Nat) :
    parse_bytes input pos ≠ .outOfFuel := by
  unfold parse_bytes
  split
  · simp
  · split
    · simp
    · simp only []
      split
      · simp
      · split
        · simp
        · split
          · simp
          · split
            · simp
            · split <;> simp

/-- The depth bound never bites for the generic tree parsers: with fuel at
least linear in the unconsumed input, no function of the family reports
`outOfFuel`. -/
theorem get_family_fuel_sufficient (fuel : Nat) : ∀ (input : List Nat) (pos : Nat),
    pos ≤ input.length →
    (3 * (input.length - pos) + 2 ≤ fuel → get_anyF fuel input pos ≠ .outOfFuel) ∧
    (3 * (input.length - pos) + 1 ≤ fuel → get_listF fuel input pos ≠ .outOfFuel) ∧
    (3 * (input.length - pos) + 3 ≤ fuel → get_listItemsF fuel input pos ≠ .outOfFuel) ∧
    (3 * (input.length - pos) + 1 ≤ fuel → get_dictF fuel input pos ≠ .outOfFuel) ∧
    (∀ acc, 3 * (input.length - pos) + 3 ≤ fuel →
      get_dictItemsF fuel input pos acc ≠ .outOfFuel) := by
  induction fuel with
  | zero =>
    intro input pos h
    exact ⟨by omega, by omega, by omega, by omega, fun _ => by omega⟩
  | succ fuel ih =>
    intro input pos h
    refine ⟨?_, ?_, ?_, ?_, ?_⟩
    · intro hbudget
      show get_anyF (fuel + 1) input pos ≠ .outOfFuel
      unfold get_anyF
      cases hb : input[pos]? with
      | none => simp
      | some b =>
        simp only
        split
        · rw [Ne, mapVal_outOfFuel_iff]
          exact parse_integer_ne_outOfFuel input pos
        · split
          · exact (ih input pos h).2.1 (by omega)
          · split
            · exact (ih input pos h).2.2.2.1 (by omega)
            · split
              · rw [Ne, mapVal_outOfFuel_iff]
                exact parse_bytes_ne_outOfFuel input pos
              · simp
    · intro hbudget
      show get_listF (fuel + 1) input pos ≠ .outOfFuel
      unfold get_listF
      split
      · simp
      next hlen =>
        split
        · simp
        · rw [Ne, mapVal_outOfFuel_iff]
          exact (ih input (pos + 1) (by omega)).2.2.1 (by omega)
    · intro hbudget
      show get_listItemsF (fuel + 1) input pos ≠ .outOfFuel
      unfold get_listItemsF
      split
      · simp
      · cases hga : get_anyF fuel input pos with
        | ok item p =>
          have hadv := (get_family_advOk fuel input pos h).1
          rw [hga] at hadv
          simp only [advOk] at hadv
          rw [Ne, mapVal_outOfFuel_iff]
          exact (ih input p (by omega)).2.2.1 (by omega)
        | err e p => simp
        | panicked => simp
        | outOfFuel => exact absurd hga ((ih input pos h).1 (by omega))
    · intro hbudget
      show get_dictF (fuel + 1) input pos ≠ .outOfFuel
      unfold get_dictF
      split
      · simp
      next hlen =>
        split
        · simp
        · rw [Ne, mapVal_outOfFuel_iff]
          exact ((ih input (pos + 1) (by omega)).2.2.2.2) [] (by omega)
    · intro acc hbudget
      show get_dictItemsF (fuel + 1) input pos acc ≠ .outOfFuel
      unfold get_dictItemsF
      split
      · simp
      · cases hkey : parse_bytes input pos with
        | ok key p1 =>
          have hk := parse_bytes_advOk input pos h
          rw [hkey] at hk
          simp only [advOk] at hk
          dsimp only
          cases hval : get_anyF fuel input p1 with
          | ok value p2 =>
            have hv := (get_family_advOk fuel input p1 (by omega)).1
            rw [hval] at hv
            simp only [advOk] at hv
            exact ((ih input p2 (by omega)).2.2.2.2) _ (by omega)
          | err e p => simp
          | panicked => simp
          | outOfFuel =>
            exact absurd hval ((ih input p1 (by omega)).1 (by omega))
        | err e p => simp
        | panicked => simp
        | outOfFuel => exact absurd hkey (parse_bytes_ne_outOfFuel input pos)

/-- The depth bound never bites for skip_value. -/
theorem skip_family_fuel_sufficient (fuel : Nat) : ∀ (input : List Nat) (pos : Nat),
    pos ≤ input.length →
    (2 * (input.length - pos) + 2 ≤ fuel → skip_valueF fuel input pos ≠ .outOfFuel) ∧
    (2 * (input.length - pos) + 3 ≤ fuel → skip_listItemsF fuel input pos ≠ .outOfFuel) ∧
    (2 * (input.length - pos) + 3 ≤ fuel → skip_dictItemsF fuel input pos ≠ .outOfFuel) := by
  induction fuel with
  | zero =>
    intro input pos h
    exact ⟨by omega, by omega, by omega⟩
  | succ fuel ih =>
    intro input pos h
    refine ⟨?_, ?_, ?_⟩
    · intro hbudget
      show skip_valueF (fuel + 1) input pos ≠ .outOfFuel
      unfold skip_valueF
      cases hb : input[pos]? with
      | none => simp
      | some b =>
        have hlt : pos < input.length := by
          by_contra hc
          rw [List.getElem?_eq_none (by omega)] at hb
          cases hb
        simp only
        split
        · rw [Ne, mapVal_outOfFuel_iff]
          exact parse_integer_ne_outOfFuel input pos
        · split
          · exact (ih input (pos + 1) (by omega)).2.1 (by omega)
          · split
            · exact (ih input (pos + 1) (by omega)).2.2 (by omega)
            · split
              · rw [Ne, mapVal_outOfFuel_iff]
                exact parse_bytes_ne_outOfFuel input pos
              · simp
    · intro hbudget
      show skip_listItemsF (fuel + 1) input pos ≠ .outOfFuel
      unfold skip_listItemsF
      split
      next hcond =>
        cases hsv : skip_valueF fuel input pos with
        | ok u p =>
          have hadv := (skip_family_advOk fuel input pos h).1
          rw [hsv] at hadv
          simp only [advOk] at hadv
          exact (ih input p (by omega)).2.1 (by omega)
        | err e p => simp
        | panicked => simp
        | outOfFuel => exact absurd hsv ((ih input pos h).1 (by omega))
      · split <;> simp
    · intro hbudget
      show skip_dictItemsF (fuel + 1) input pos ≠ .outOfFuel
      unfold skip_dictItemsF
      split
      next hcond =>
        cases hsv : skip_valueF fuel input pos with
        | ok u p1 =>
          have h1 := (skip_family_advOk fuel input pos h).1
          rw [hsv] at h1
          simp only [advOk] at h1
          dsimp only
          split
          next hp1 =>
            cases hsv2 : skip_valueF fuel input p1 with
            | ok u2 p2 =>
              have h2 := (skip_family_advOk fuel input p1 (by omega)).1
              rw [hsv2] at h2
              simp only [advOk] at h2
              exact (ih input p2 (by omega)).2.2 (by omega)
            | err e p => simp
            | panicked => simp
            | outOfFuel =>
              exact absurd hsv2 ((ih input p1 (by omega)).1 (by omega))
          next hp1 => simp
        | err e p => simp
        | panicked => simp
        | outOfFuel => exact absurd hsv ((ih input pos h).1 (by omega))
      · split <;> simp

/-- The depth bound never bites for the serde-driven decoder. -/
theorem deserialize_family_fuel_sufficient (fuel : Nat) :
    ∀ (input : List Nat) (pos : Nat), pos ≤ input.length →
    (3 * (input.length - pos) + 2 ≤ fuel → deserialize_anyF fuel input pos ≠ .outOfFuel) ∧
    (3 * (input.length - pos) + 1 ≤ fuel → deserialize_seqF fuel input pos ≠ .outOfFuel) ∧
    (3 * (input.length - pos) + 1 ≤ fuel → deserialize_mapF fuel input pos ≠ .outOfFuel) ∧
    (3 * (input.length - pos) + 3 ≤ fuel → seqAccessElemsF fuel input pos ≠ .outOfFuel) ∧
    (3 * (input.length - pos) + 3 ≤ fuel → mapAccessEntriesF fuel input pos ≠ .outOfFuel) := by
  induction fuel with
  | zero =>
    intro input pos h
    exact ⟨by omega, by omega, by omega, by omega, by omega⟩
  | succ fuel ih =>
    intro input pos h
    refine ⟨?_, ?_, ?_, ?_, ?_⟩
    · intro hbudget
      show deserialize_anyF (fuel + 1) input pos ≠ .outOfFuel
      unfold deserialize_anyF
      cases hb : input[pos]? with
      | none => simp
      | some b =>
        simp only
        split
        · rw [Ne, mapVal_outOfFuel_iff]
          exact parse_integer_ne_outOfFuel input pos
        · split
          · exact (ih input pos h).2.1 (by omega)
          · split
            · exact (ih input pos h).2.2.1 (by omega)
            · split
              · rw [Ne, mapVal_outOfFuel_iff]
                exact parse_bytes_ne_outOfFuel input pos
              · simp
    · intro hbudget
      show deserialize_seqF (fuel + 1) input pos ≠ .outOfFuel
      unfold deserialize_seqF
      cases hb : input[pos]? with
      | none => simp
      | some b =>
        simp only
        split
        · rw [Ne, mapVal_outOfFuel_iff]
          exact parse_bytes_ne_outOfFuel input pos
        · unfold check_for_container_type
          split
          · simp
          next hnone =>
            have hlen : ¬input.length < pos + 2 := by
              by_contra hc
              simp [hc] at hnone
            split
            · simp
            · rw [Ne, mapVal_outOfFuel_iff]
              exact (ih input (pos + 1) (by omega)).2.2.2.1 (by omega)
    · intro hbudget
      show deserialize_mapF (fuel + 1) input pos ≠ .outOfFuel
      unfold deserialize_mapF check_for_container_type
      split
      · simp
      next hnone =>
        have hlen : ¬input.length < pos + 2 := by
          by_contra hc
          simp [hc] at hnone
        split
        · simp
        · rw [Ne, mapVal_outOfFuel_iff]
          exact (ih input (pos + 1) (by omega)).2.2.2.2 (by omega)
    · intro hbudget
      show seqAccessElemsF (fuel + 1) input pos ≠ .outOfFuel
      unfold seqAccessElemsF
      split
      · simp
      · cases hda : deserialize_anyF fuel input pos with
        | ok item p =>
          have hadv := (deserialize_family_advOk fuel input pos h).1
          rw [hda] at hadv
          simp only [advOk] at hadv
          rw [Ne, mapVal_outOfFuel_iff]
          exact (ih input p (by omega)).2.2.2.1 (by omega)
        | err e p => simp
        | panicked => simp
        | outOfFuel => exact absurd hda ((ih input pos h).1 (by omega))
    · intro hbudget
      show mapAccessEntriesF (fuel + 1) input pos ≠ .outOfFuel
      unfold mapAccessEntriesF
      split
      · simp
      · cases hb : input[pos]? with
        | none => simp
        | some b =>
          simp only
          split
          · cases hkey : parse_bytes input pos with
            | ok key p1 =>
              have hk := parse_bytes_advOk input pos h
              rw [hkey] at hk
              simp only [advOk] at hk
              dsimp only
              cases hval : deserialize_anyF fuel input p1 with
              | ok value p2 =>
                have hv := (deserialize_family_advOk fuel input p1 (by omega)).1
                rw [hval] at hv
                simp only [advOk] at hv
                rw [Ne, mapVal_outOfFuel_iff]
                exact (ih input p2 (by omega)).2.2.2.2 (by omega)
              | err e p => simp
              | panicked => simp
              | outOfFuel =>
                exact absurd hval ((ih input p1 (by omega)).1 (by omega))
            | err e p => simp
            | panicked => simp
            | outOfFuel => exact absurd hkey (parse_bytes_ne_outOfFuel input pos)
          · simp

/-- C3.  The claim that decoding never aborts the process fails: on the
21-byte input `18446744073709551615:` (a length prefix equal to
`usize::MAX`), `parse_bytes` — and hence the decode entry `get_any` — panics:
the `colon_index + 1 + length` computation overflows `usize`, which aborts a
debug build outright, and in a release build wraps to `20`, making the
`&input[21..20]` slice panic. -/
theorem parse_bytes_huge_length_panics :
    parse_bytes [49, 56, 52, 52, 54, 55, 52, 52, 48, 55,
      51, 55, 48, 57, 53, 53, 49, 54, 49, 53, 58] 0 = .panicked ∧
    get_any [49, 56, 52, 52, 54, 55, 52, 52, 48, 55,
      51, 55, 48, 57, 53, 53, 49, 54, 49, 53, 58] 0 = .panicked := by
  decide

/-- C4.  Cursor precision fails for dictionaries: on `de` the dict parser
`get_dict` succeeds with the cursor at 1 — on the closing `e`, not one past
it — whereas `get_list` on `le` does stop one past the consumed token, at 2. -/
theorem get_dict_does_not_consume_end :
    get_dict [100, 101] 0 = .ok (.Dict []) 1 ∧
    get_list [108, 101] 0 = .ok (.List []) 2 ∧
    (1 : Nat) ≠ 2 := by
  decide

/-- C6.  Leading-zero handling of `parse_integer`: the multi-digit token `03`
is rejected with the leading-zero error and the bare token `0` is accepted,
but contrary to the grammar (`no "-0"`), `i-0e` is accepted and parsed as 0,
and `i-05e` is accepted and parsed as -5, because the leading-zero test only
looks at the first scanned byte, which is the minus sign. -/
theorem parse_integer_leading_zero_and_minus_zero :
    parse_integer [105, 48, 51, 101] 0 = .err .InvalidIntegerLeadingZero 0 ∧
    parse_integer [105, 48, 101] 0 = .ok 0 3 ∧
    parse_integer [105, 45, 48, 101] 0 = .ok 0 4 ∧
    parse_integer [105, 45, 48, 53, 101] 0 = .ok (-5) 5 := by
  decide

/-- C7.  A frame whose 4-byte big-endian length field is 0 is not treated as
a keep-alive no-op: `from_reader` fails the read with the InvalidData error
"Keep-alive not handled". -/
theorem from_reader_keepalive_errors :
    from_reader [0, 0, 0, 0] = .err .KeepAliveNotHandled := by
  decide

/-- C8.  Piece payload layout: on a 64-byte payload with bytes 0..63 the
decoder returns the two big-endian header fields but takes the fixed slice
`payload[13..64]` as the block, which differs from the remainder
`payload[8..]` that the claim specifies. -/
theorem piece_payload_fixed_slice :
    build_from_type_and_payload .Piece (List.range 64)
      = .ok (.Piece 66051 67438087 (sliceL (List.range 64) 13 64)) ∧
    sliceL (List.range 64) 13 64 ≠ sliceL (List.range 64) 8 64 := by
  decide

/-- C10.  A Piece frame whose payload is shorter than 64 bytes makes the
decoder panic on an out-of-bounds slice (`payload[..8]` below 8 bytes,
`payload[13..64]` below 64) rather than return an ok or err result, and a
Piece message is only ever constructed from a payload of at least 64
bytes. -/
theorem piece_short_payload_panics (payload : List Nat) :
    (payload.length < 64 → build_from_type_and_payload .Piece payload = .panicked) ∧
    (∀ m, build_from_type_and_payload .Piece payload = .ok m → 64 ≤ payload.length) := by
  have hpan : payload.length < 64 → build_from_type_and_payload .Piece payload = .panicked := by
    intro h
    simp only [build_from_type_and_payload]
    by_cases h8 : payload.length < 8
    · simp [h8]
    · simp [h8, h]
  refine ⟨hpan, fun m hm => ?_⟩
  by_contra hlt
  push_neg at hlt
  rw [hpan hlt] at hm
  exact IoResult.noConfusion hm

/-- C10 witness: a 1-byte Piece payload panics. -/
theorem piece_short_payload_panics_witness :
    build_from_type_and_payload .Piece [0] = .panicked :=
  (piece_short_payload_panics [0]).1 (by decide)

/-- C1.  Round trip: for every value expressible in the data model (an i64
integer, a byte string, a list, or a map with byte-string keys — `wfB`
states exactly that the integers are in i64 range and map keys are strictly
ascending, the association-list representation of a map — whose encoding
fits in a `usize`-addressable buffer), decoding the serializer's output with
the serde decode entry point yields the original value, consuming exactly
the encoding. -/
theorem round_trip_decode_encode (v : Bencode) (hwf : wfB v = true)
    (hsize : (to_bencode v).length < USIZE) :
    deserialize_any (to_bencode v) 0 = .ok v (to_bencode v).length := by
  have h := decode_encode_sized (sizeOf v) v (Nat.le_refl _) (fuelFor (to_bencode v)) [] []
    hwf ?_ ?_
  · simpa using h
  · simpa using hsize
  · unfold fuelFor
    simp <;> omega

/-- C1 witness: the spec's own scenario, the map
`{cow ↦ moo, spam ↦ eggs}` (with a nested list and integer added), decoded
back from its canonical encoding. -/
theorem round_trip_decode_encode_witness :
    deserialize_any (to_bencode (.Dict [([99, 111, 119], .Bytes [109, 111, 111]),
        ([115, 112, 97, 109], .List [.Integer (-42), .Bytes [101, 103, 103, 115]])])) 0
      = .ok (.Dict [([99, 111, 119], .Bytes [109, 111, 111]),
        ([115, 112, 97, 109], .List [.Integer (-42), .Bytes [101, 103, 103, 115]])])
        (to_bencode (.Dict [([99, 111, 119], .Bytes [109, 111, 111]),
        ([115, 112, 97, 109], .List [.Integer (-42), .Bytes [101, 103, 103, 115]])])).length :=
  round_trip_decode_encode _ (by decide) (by decide)

/-- C5 counterexample.  On the dict `di1ei2ee`, whose key is the integer
`i1e` rather than a byte string, `skip_value` succeeds (it skips the key with
a recursive `skip_value`, never checking its type), while a full parse
reports an error: the serde decoder rejects the key with `InvalidKey` and
`get_dict` fails inside `parse_bytes`. -/
theorem skip_value_accepts_non_bytestring_dict_key :
    skip_value [100, 105, 49, 101, 105, 50, 101, 101] 0 = .ok () 8 ∧
    deserialize_any [100, 105, 49, 101, 105, 50, 101, 101] 0
      = .err (.InvalidKey (.Known .Integer)) 1 ∧
    get_dict [100, 105, 49, 101, 105, 50, 101, 101] 0
      = .err .LenSeparatorMissing 1 := by
  decide

/-- Entries with pairwise-distinct keys that are sorted by key under `keyLe`
are sorted strictly, so two sorted permutations of the same entries
coincide. -/
theorem sorted_nodup_perm_eq {l₁ l₂ : List (PreSerializeKey × List Nat)}
    (hperm : l₁.Perm l₂)
    (hs₁ : List.Pairwise keyLe l₁) (hs₂ : List.Pairwise keyLe l₂)
    (hnd : (l₁.map fun kv => kv.1.2).Nodup) : l₁ = l₂ := by
  have hnd₂ : (l₂.map fun kv => kv.1.2).Nodup := ((hperm.map _).nodup_iff).mp hnd
  have hne₁ : l₁.Pairwise fun a b => a.1.2 ≠ b.1.2 := List.pairwise_map.mp hnd
  have hne₂ : l₂.Pairwise fun a b => a.1.2 ≠ b.1.2 := List.pairwise_map.mp hnd₂
  haveI : IsAntisymm (PreSerializeKey × List Nat)
      (fun a b => keyLe a b ∧ a.1.2 ≠ b.1.2) := by
    constructor
    intro a b hab hba
    exact absurd (bytesLe_antisymm a.1.2 b.1.2 hab.1 hba.1) hab.2
  exact List.eq_of_perm_of_sorted hperm (hs₁.and hne₁) (hs₂.and hne₂)

/-- C2.  BencodeMapSerializer::finish emits `d`, then the buffered entries
sorted ascending by the raw serialized key bytes, then `e`; consequently two
buffers holding the same entries in different insertion orders (with
pairwise-distinct keys, as produced by a logical map) serialize to
byte-identical output. -/
theorem map_encoding_sorted_and_deterministic
    (kvs₁ kvs₂ : List (PreSerializeKey × List Nat))
    (hperm : kvs₁.Perm kvs₂)
    (hnodup : (kvs₁.map fun kv => kv.1.2).Nodup) :
    (∃ sorted : List (PreSerializeKey × List Nat),
        sorted.Perm kvs₁ ∧ List.Pairwise keyLe sorted ∧
        BencodeMapSerializer.finish kvs₁
          = DICT :: (sorted.map fun kv => kv.1.1 ++ kv.1.2 ++ kv.2).flatten ++ [END]) ∧
    BencodeMapSerializer.finish kvs₁ = BencodeMapSerializer.finish kvs₂ := by
  constructor
  · exact ⟨kvs₁.insertionSort keyLe, List.perm_insertionSort keyLe kvs₁,
      List.sorted_insertionSort keyLe kvs₁, rfl⟩
  · have hsorteq : kvs₁.insertionSort keyLe = kvs₂.insertionSort keyLe := by
      have hp : (kvs₁.insertionSort keyLe).Perm (kvs₂.insertionSort keyLe) :=
        ((List.perm_insertionSort keyLe kvs₁).trans hperm).trans
          (List.perm_insertionSort keyLe kvs₂).symm
      have hnd' : ((kvs₁.insertionSort keyLe).map fun kv => kv.1.2).Nodup :=
        (((List.perm_insertionSort keyLe kvs₁).map _).nodup_iff).mpr hnodup
      exact sorted_nodup_perm_eq hp (List.sorted_insertionSort keyLe kvs₁)
        (List.sorted_insertionSort keyLe kvs₂) hnd'
    unfold BencodeMapSerializer.finish
    rw [hsorteq]

/-- C2 witness: the spec's own scenario — the map with keys `spam` and `cow`
inserted in either order serializes identically (and, as the sanity example
above shows, to `d3:cow3:moo4:spam4:eggse`). -/
theorem map_encoding_sorted_and_deterministic_witness :
    BencodeMapSerializer.finish
        [(([52, 58], [115, 112, 97, 109]), [52, 58, 101, 103, 103, 115]),
         (([51, 58], [99, 111, 119]), [51, 58, 109, 111, 111])]
      = BencodeMapSerializer.finish
        [(([51, 58], [99, 111, 119]), [51, 58, 109, 111, 111]),
         (([52, 58], [115, 112, 97, 109]), [52, 58, 101, 103, 103, 115])] :=
  (map_encoding_sorted_and_deterministic _ _ (by decide) (by decide)).2

/-- C5 (amended).  The structural skip consumes exactly one well-formed
value: on any encoded value it succeeds and leaves the cursor exactly one
past the encoding — the same position at which the serde full parse ends
(and one past where `get_dict` stops, which never consumes a dict's closing
`e`).  It applies the identical scalar token rules (it calls the very same
`parse_integer`/`parse_bytes`), but it does not enforce that dict keys are
byte strings: a dict whose key is any skippable value is skipped without the
`InvalidKey` error a full parse reports (see the counterexample). -/
theorem skip_value_consumes_encoded_value (v : Bencode) (hwf : wfB v = true)
    (hsize : (to_bencode v).length < USIZE) :
    skip_value (to_bencode v) 0 = .ok () (to_bencode v).length ∧
    deserialize_any (to_bencode v) 0 = .ok v (to_bencode v).length := by
  constructor
  · have h := skip_encode_sized (sizeOf v) v (Nat.le_refl _) (fuelFor (to_bencode v)) [] []
      hwf (by simpa using hsize) (by unfold fuelFor; simp <;> omega)
    simpa using h
  · have h := decode_encode_sized (sizeOf v) v (Nat.le_refl _) (fuelFor (to_bencode v)) [] []
      hwf (by simpa using hsize) (by unfold fuelFor; simp <;> omega)
    simpa using h

/-- C5 witness: skipping the encoded dict `d1:ai42ee` consumes all 9 bytes,
exactly where the full parse ends. -/
theorem skip_value_consumes_encoded_value_witness :
    skip_value (to_bencode (.Dict [([97], .Integer 42)])) 0
      = .ok () (to_bencode (.Dict [([97], .Integer 42)])).length ∧
    deserialize_any (to_bencode (.Dict [([97], .Integer 42)])) 0
      = .ok (.Dict [([97], .Integer 42)])
          (to_bencode (.Dict [([97], .Integer 42)])).length :=
  skip_value_consumes_encoded_value _ (by decide) (by decide)

/-- C9 (amended).  For every decode operation — integer, byte string, the
list/dict/any tree parsers, the structural skip, and the serde decode entry
— and every buffer with `pos ≤ len` before the call, the cursor stays within
`0 ≤ pos ≤ len` afterwards and never decreases, advancing strictly on
success (and the embedding's depth bound is never the reason a call stops).
The original claim's stronger clause — that `pos` is mutated only by
successful parses — fails: see the counterexample theorem. -/
theorem cursor_invariant_bounds_monotone (input : List Nat) (pos : Nat)
    (h : pos ≤ input.length) :
    advOk pos input.length (parse_integer input pos) ∧
    advOk pos input.length (parse_bytes input pos) ∧
    advOk pos input.length (get_any input pos) ∧
    advOk pos input.length (get_list input pos) ∧
    advOk pos input.length (get_dict input pos) ∧
    advOk pos input.length (skip_value input pos) ∧
    advOk pos input.length (deserialize_any input pos) ∧
    get_any input pos ≠ .outOfFuel ∧
    get_list input pos ≠ .outOfFuel ∧
    get_dict input pos ≠ .outOfFuel ∧
    skip_value input pos ≠ .outOfFuel ∧
    deserialize_any input pos ≠ .outOfFuel := by
  have hA := get_family_advOk (fuelFor input) input pos h
  have hS := skip_family_advOk (fuelFor input) input pos h
  have hD := deserialize_family_advOk (fuelFor input) input pos h
  have hAf := get_family_fuel_sufficient (fuelFor input) input pos h
  have hSf := skip_family_fuel_sufficient (fuelFor input) input pos h
  have hDf := deserialize_family_fuel_sufficient (fuelFor input) input pos h
  have hlen : pos ≤ input.length := h
  refine ⟨parse_integer_advOk input pos h, parse_bytes_advOk input pos h,
    hA.1, hA.2.1, hA.2.2.2.1, hS.1, hD.1,
    hAf.1 ?_, hAf.2.1 ?_, hAf.2.2.2.1 ?_, hSf.1 ?_, hDf.1 ?_⟩
  all_goals unfold fuelFor
  all_goals omega

/-- C9 witness: the invariant instantiated on the buffer `i42e` at
position 0. -/
theorem cursor_invariant_bounds_monotone_witness :
    advOk 0 4 (parse_integer [105, 52, 50, 101] 0) ∧
    advOk 0 4 (skip_value [105, 52, 50, 101] 0) :=
  ⟨(cursor_invariant_bounds_monotone [105, 52, 50, 101] 0 (by decide)).1,
   (cursor_invariant_bounds_monotone [105, 52, 50, 101] 0 (by decide)).2.2.2.2.2.1⟩

/-- C9 counterexample.  The cursor is not mutated only by successful parses:
`skip_value` on the 1-byte input `l` fails with an end-of-input error, yet
has moved the cursor from 0 to 1 (past the `l` it consumed before
failing). -/
theorem skip_value_mutates_pos_on_failure :
    skip_value [108] 0 = .err .UnexpectedEof 1 := by
  decide

end BitTorrent
